import Mathlib

/-!
Verification development for the `nfdeterminize` repository.

The repository determinizes NFAs (Rabin–Scott subset construction with
ε-closure, `src/automaton.rs`) and minimizes DFAs (Hopcroft partition
refinement), using a byte-vector bitset `Ubig` (`src/ubig.rs`) as the
subset-state key.

Shallow embedding conventions:
* Rust `usize` is modelled as `Nat` (no overflow occurs in the algorithms:
  values are state ids, symbols and byte values).
* `Vec<u8>` is modelled as `List Nat`; the byte operations (`|`, `&`, `^`,
  `<<`, `>>`) are on `Nat` and keep values below 256 whenever the inputs are.
* Rust worklist loops are modelled with an explicit fuel parameter; a
  function returns `none` when the fuel runs out or when a Rust `panic!`
  branch is reached, so termination and panic-freedom are theorems, not
  assumptions baked into the embedding.
* `HashMap`/`HashSet` are modelled as association lists keyed by the byte
  vector (the `Hash` impl of `Ubig` hashes the raw byte vector, so the map
  distinguishes keys with distinct byte vectors) and as `Finset ℕ`.
-/

namespace NFD

/-- Model of `Ubig` (src/ubig.rs): a set of indices stored as a byte
vector, bit `i` of the set = bit `i % 8` of byte `i / 8`. -/
structure Ubig where
  num : List Nat
  deriving Repr, DecidableEq

namespace Ubig

/-- `Ubig::new`. -/
def new : Ubig := ⟨[]⟩

/-- `Ubig::bit_at`: test bit `pos`; `false` beyond current storage. -/
def bit_at (u : Ubig) (pos : Nat) : Bool :=
  if pos < u.num.length * 8 then ((u.num.getD (pos / 8) 0) >>> (pos % 8)) &&& 1 == 1
  else false

/-- The `while size_incr > 8 { push(0) }; push(0)` loop of `Ubig::extend`,
parameterised by the current value of `size_incr`, with a structural fuel
argument (the loop decreases `size_incr` by 8 each round, so a fuel of
`size_incr` itself is always enough; see `extendGo_eq`). -/
def extendGoF : Nat → Nat → List Nat → List Nat
  | 0, _, num => num ++ [0]
  | fuel + 1, size_incr, num =>
    if size_incr > 8 then extendGoF fuel (size_incr - 8) (num ++ [0]) else num ++ [0]

def extendGo (size_incr : Nat) (num : List Nat) : List Nat :=
  extendGoF size_incr size_incr num

/-- `Ubig::extend`: extend the byte vector to cover `new_size`. -/
def extend (u : Ubig) (new_size : Nat) : Ubig :=
  ⟨extendGo (new_size - u.num.length) u.num⟩

/-- The body of `Ubig::flip` for an in-range bit position. -/
def flipByte (u : Ubig) (bit : Nat) : Ubig :=
  ⟨u.num.set (bit / 8) ((u.num.getD (bit / 8) 0) ^^^ (1 <<< (bit % 8)))⟩

/-- `Ubig::flip`, with a recursion counter: the Rust function recurses
after `extend` when the bit is out of range; at most three rounds are ever
needed (`flipGo_three_rounds`). -/
def flipGo : Nat → Ubig → Nat → Ubig
  | 0, u, _ => u
  | fuel + 1, u, bit =>
    if bit < u.num.length * 8 then u.flipByte bit
    else flipGo fuel (u.extend bit) bit

/-- `Ubig::flip`. -/
def flip (u : Ubig) (bit : Nat) : Ubig := flipGo 3 u bit

/-- `Ubig::set_to`. -/
def set_to (u : Ubig) (bit : Nat) (val : Bool) : Ubig :=
  if bit < u.num.length * 8 then
    let pos := bit / 8
    if val then ⟨u.num.set pos ((u.num.getD pos 0) ||| (1 <<< (bit % 8)))⟩
    else ⟨u.num.set pos ((u.num.getD pos 0) &&& (0xFF ^^^ (1 <<< (bit % 8))))⟩
  else (u.extend bit).flip bit

/-- `Ubig::get_seq`: the ascending list of set bit positions. -/
def get_seq (u : Ubig) : List Nat :=
  (List.range u.num.length).flatMap (fun byte =>
    (List.range 8).filterMap (fun bit =>
      if (u.num.getD byte 0) >>> bit &&& 1 == 1 then some (byte * 8 + bit) else none))

/-- `impl PartialEq for Ubig` (src/ubig.rs lines 26–47), for the case
`a.num.len() ≥ b.num.len()`: compare byte-wise, and for the tail of `a`
return `false` only when the tail byte equals `1`. -/
def eqGo (a b : List Nat) : Bool :=
  (List.range a.length).all (fun bit =>
    if bit ≥ b.length then !(a.getD bit 0 == 1)
    else a.getD bit 0 == b.getD bit 0)

/-- `impl PartialEq for Ubig`: swap so that the first list is the longer
one, then run the byte-wise loop. -/
def rustEq (x y : Ubig) : Bool :=
  if x.num.length < y.num.length then eqGo y.num x.num else eqGo x.num y.num

/-- `impl Hash for Ubig` feeds the raw byte vector `self.num` to the
hasher, so two values hash equal exactly when the hasher input — modelled
by this function — coincides.  No trailing-zero canonicalization happens. -/
def hashInput (u : Ubig) : List Nat := u.num

/-- The set of indices a `Ubig` represents. -/
def toSet (u : Ubig) : Set Nat := {i | u.bit_at i = true}

end Ubig

namespace Ubig

theorem natBeq_eq_decide (a b : Nat) : (a == b) = decide (a = b) := by
  by_cases h : a = b
  · subst h; simp
  · have h1 : (a == b) = false := beq_eq_false_iff_ne.mpr h
    rw [h1, decide_eq_false h]

theorem bit_at_eq_testBit (u : Ubig) (pos : Nat) :
    u.bit_at pos = (u.num.getD (pos / 8) 0).testBit (pos % 8) := by
  unfold bit_at
  by_cases h : pos < u.num.length * 8
  · simp only [if_pos h, Nat.testBit_to_div_mod, Nat.shiftRight_eq_div_pow, Nat.and_one_is_mod]
    exact natBeq_eq_decide _ _
  · rw [if_neg h]
    have hlen : u.num.length ≤ pos / 8 := by omega
    rw [List.getD_eq_getElem?_getD, List.getElem?_eq_none hlen]
    simp

theorem extendGoF_fuel_irrel :
    ∀ (fuel fuel' incr : Nat) (num : List Nat), incr ≤ 8 * fuel + 8 → incr ≤ 8 * fuel' + 8 →
      extendGoF fuel incr num = extendGoF fuel' incr num := by
  intro fuel
  induction fuel with
  | zero =>
    intro fuel' incr num h1 h2
    match fuel' with
    | 0 => rfl
    | f' + 1 =>
      show num ++ [0] = if incr > 8 then extendGoF f' (incr - 8) (num ++ [0]) else num ++ [0]
      rw [if_neg (by omega)]
  | succ fuel ih =>
    intro fuel' incr num h1 h2
    show (if incr > 8 then extendGoF fuel (incr - 8) (num ++ [0]) else num ++ [0]) = _
    by_cases hgt : incr > 8
    · match fuel' with
      | 0 => omega
      | f' + 1 =>
        show _ = if incr > 8 then extendGoF f' (incr - 8) (num ++ [0]) else num ++ [0]
        rw [if_pos hgt, if_pos hgt]
        exact ih f' (incr - 8) (num ++ [0]) (by omega) (by omega)
    · rw [if_neg hgt]
      match fuel' with
      | 0 => rfl
      | f' + 1 =>
        show _ = if incr > 8 then extendGoF f' (incr - 8) (num ++ [0]) else num ++ [0]
        rw [if_neg hgt]

theorem extendGoF_succ (fuel incr : Nat) (num : List Nat) :
    extendGoF (fuel + 1) incr num =
      if incr > 8 then extendGoF fuel (incr - 8) (num ++ [0]) else num ++ [0] := rfl

/-- The one-step unfolding of the `extend` loop. -/
theorem extendGo_eq (incr : Nat) (num : List Nat) :
    extendGo incr num = if incr > 8 then extendGo (incr - 8) (num ++ [0]) else num ++ [0] := by
  by_cases hgt : incr > 8
  · rw [if_pos hgt]
    obtain ⟨i, rfl⟩ : ∃ i, incr = i + 9 := ⟨incr - 9, by omega⟩
    show extendGoF (i + 9) (i + 9) num = extendGo (i + 9 - 8) (num ++ [0])
    rw [show i + 9 = (i + 8) + 1 from rfl, extendGoF_succ, if_pos hgt]
    show extendGoF (i + 8) (i + 9 - 8) (num ++ [0]) = extendGoF (i + 9 - 8) (i + 9 - 8) (num ++ [0])
    rw [show i + 9 - 8 = i + 1 from rfl]
    exact extendGoF_fuel_irrel (i + 8) (i + 1) (i + 1) (num ++ [0]) (by omega) (by omega)
  · rw [if_neg hgt]
    cases incr with
    | zero => rfl
    | succ i =>
      show extendGoF (i + 1) (i + 1) num = num ++ [0]
      rw [extendGoF_succ, if_neg hgt]

theorem extendGo_spec (incr : Nat) :
    ∀ num : List Nat, ∃ k, 0 < k ∧ extendGo incr num = num ++ List.replicate k 0 := by
  induction incr using Nat.strong_induction_on with
  | _ incr ih =>
    intro num
    rw [extendGo_eq]
    by_cases h : incr > 8
    · obtain ⟨k, hk, he⟩ := ih (incr - 8) (by omega) (num ++ [0])
      refine ⟨k + 1, by omega, ?_⟩
      rw [if_pos h, he, List.append_assoc, List.replicate_succ, List.singleton_append]
    · exact ⟨1, by omega, by rw [if_neg h, List.replicate_one]⟩

theorem getD_extendGo (incr : Nat) (num : List Nat) (i : Nat) :
    (extendGo incr num).getD i 0 = num.getD i 0 := by
  obtain ⟨k, _, he⟩ := extendGo_spec incr num
  rw [he]
  by_cases hi : i < num.length
  · rw [List.getD_eq_getElem?_getD, List.getD_eq_getElem?_getD, List.getElem?_append_left hi]
  · rw [List.getD_eq_getElem?_getD, List.getD_eq_getElem?_getD,
      List.getElem?_append_right (by omega), List.getElem?_eq_none (show num.length ≤ i by omega),
      List.getElem?_replicate]
    by_cases h2 : i - num.length < k <;> simp [h2]

theorem extendGo_length_lower (incr : Nat) :
    ∀ num : List Nat, 8 * num.length + incr ≤ 8 * (extendGo incr num).length := by
  induction incr using Nat.strong_induction_on with
  | _ incr ih =>
    intro num
    rw [extendGo_eq]
    by_cases h : incr > 8
    · rw [if_pos h]
      have := ih (incr - 8) (by omega) (num ++ [0])
      simp only [List.length_append, List.length_cons, List.length_nil] at this
      omega
    · rw [if_neg h]
      simp only [List.length_append, List.length_cons, List.length_nil]
      omega

theorem extendGo_length_upper (incr : Nat) :
    ∀ num : List Nat, (extendGo incr num).length ≤ num.length + incr / 8 + 1 := by
  induction incr using Nat.strong_induction_on with
  | _ incr ih =>
    intro num
    rw [extendGo_eq]
    by_cases h : incr > 8
    · rw [if_pos h]
      have := ih (incr - 8) (by omega) (num ++ [0])
      simp only [List.length_append, List.length_cons, List.length_nil] at this
      omega
    · rw [if_neg h]
      simp only [List.length_append, List.length_cons, List.length_nil]
      omega

theorem extendGo_length_gt (incr : Nat) (num : List Nat) :
    num.length < (extendGo incr num).length := by
  obtain ⟨k, hk, he⟩ := extendGo_spec incr num
  rw [he]
  simp only [List.length_append, List.length_replicate]
  omega

theorem bit_at_extend (u : Ubig) (n i : Nat) : (u.extend n).bit_at i = u.bit_at i := by
  rw [bit_at_eq_testBit, bit_at_eq_testBit]
  show ((extendGo (n - u.num.length) u.num).getD (i / 8) 0).testBit (i % 8) = _
  rw [getD_extendGo]

theorem extend_covers (u : Ubig) (bit : Nat) (h : ¬ bit < u.num.length * 8) :
    bit ≤ (u.extend bit).num.length * 8 ∧
    (0 < u.num.length → bit < (u.extend bit).num.length * 8) ∧
    u.num.length < (u.extend bit).num.length := by
  have h1 := extendGo_length_lower (bit - u.num.length) u.num
  have h2 := extendGo_length_gt (bit - u.num.length) u.num
  have hd : (u.extend bit).num.length = (extendGo (bit - u.num.length) u.num).length := rfl
  omega

theorem extend_length_upper (u : Ubig) (bit : Nat) (h : ¬ bit < u.num.length * 8) :
    (u.extend bit).num.length ≤ bit / 4 + 2 := by
  have h1 := extendGo_length_upper (bit - u.num.length) u.num
  show (extendGo (bit - u.num.length) u.num).length ≤ bit / 4 + 2
  omega

theorem bit_at_flipByte (u : Ubig) (bit i : Nat) (h : bit < u.num.length * 8) :
    (u.flipByte bit).bit_at i = ((u.bit_at i).xor (decide (i = bit))) := by
  rw [bit_at_eq_testBit, bit_at_eq_testBit]
  unfold flipByte
  simp only
  have hp : bit / 8 < u.num.length := by omega
  by_cases hd : i / 8 = bit / 8
  · rw [hd, List.getD_eq_getElem?_getD, List.getElem?_set_self hp]
    simp only [Option.getD_some]
    rw [Nat.one_shiftLeft, Nat.testBit_xor, Nat.testBit_two_pow]
    have hiff : (bit % 8 = i % 8) ↔ (i = bit) := by omega
    rw [List.getD_eq_getElem?_getD]
    congr 1
    exact decide_eq_decide.mpr hiff
  · rw [List.getD_eq_getElem?_getD, List.getD_eq_getElem?_getD,
      List.getElem?_set_ne (show bit / 8 ≠ i / 8 from fun he => hd he.symm)]
    have : ¬ (i = bit) := by omega
    simp [this]

theorem flipGo_succ (fuel : Nat) (u : Ubig) (bit : Nat) :
    flipGo (fuel + 1) u bit =
      if bit < u.num.length * 8 then u.flipByte bit else flipGo fuel (u.extend bit) bit := rfl

theorem bit_at_flip (u : Ubig) (bit i : Nat) :
    (u.flip bit).bit_at i = ((u.bit_at i).xor (decide (i = bit))) := by
  show (flipGo (2 + 1) u bit).bit_at i = _
  by_cases h1 : bit < u.num.length * 8
  · rw [flipGo_succ, if_pos h1, bit_at_flipByte u bit i h1]
  · rw [flipGo_succ, if_neg h1]
    have hcov := extend_covers u bit h1
    by_cases h2 : bit < (u.extend bit).num.length * 8
    · show (flipGo (1 + 1) (u.extend bit) bit).bit_at i = _
      rw [flipGo_succ, if_pos h2, bit_at_flipByte _ bit i h2, bit_at_extend]
    · have hlen1 : 0 < (u.extend bit).num.length := by omega
      have hcov2 := extend_covers (u.extend bit) bit h2
      have h3 : bit < ((u.extend bit).extend bit).num.length * 8 := hcov2.2.1 hlen1
      show (flipGo (1 + 1) (u.extend bit) bit).bit_at i = _
      rw [flipGo_succ, if_neg h2]
      show (flipGo (0 + 1) ((u.extend bit).extend bit) bit).bit_at i = _
      rw [flipGo_succ, if_pos h3, bit_at_flipByte _ bit i h3, bit_at_extend, bit_at_extend]

theorem bit_at_out_of_range (u : Ubig) (bit : Nat) (h : ¬ bit < u.num.length * 8) :
    u.bit_at bit = false := by
  unfold bit_at
  rw [if_neg h]

theorem bit_at_set_to_true (u : Ubig) (bit i : Nat) :
    (u.set_to bit true).bit_at i = (u.bit_at i || decide (i = bit)) := by
  unfold set_to
  by_cases h : bit < u.num.length * 8
  · rw [if_pos h]
    simp only [if_pos trivial]
    rw [bit_at_eq_testBit, bit_at_eq_testBit]
    have hp : bit / 8 < u.num.length := by omega
    by_cases hd : i / 8 = bit / 8
    · rw [hd, List.getD_eq_getElem?_getD, List.getElem?_set_self hp]
      simp only [Option.getD_some]
      rw [Nat.one_shiftLeft, Nat.testBit_or, Nat.testBit_two_pow]
      have hiff : (bit % 8 = i % 8) ↔ (i = bit) := by omega
      rw [List.getD_eq_getElem?_getD]
      congr 1
      exact decide_eq_decide.mpr hiff
    · rw [List.getD_eq_getElem?_getD, List.getD_eq_getElem?_getD,
        List.getElem?_set_ne (show bit / 8 ≠ i / 8 from fun he => hd he.symm)]
      have : ¬ (i = bit) := by omega
      simp [this]
  · rw [if_neg h, bit_at_flip, bit_at_extend]
    by_cases hi : i = bit
    · subst hi
      rw [bit_at_out_of_range u i h]
      simp
    · simp [hi]

/-- `set_to` with `val = true` as a set-of-indices operation. -/
theorem toSet_set_to_true (u : Ubig) (bit : Nat) :
    (u.set_to bit true).toSet = u.toSet ∪ {bit} := by
  ext i
  simp only [toSet, Set.mem_setOf_eq, Set.mem_union, Set.mem_singleton_iff,
    bit_at_set_to_true, Bool.or_eq_true, decide_eq_true_eq]

theorem flipGo_length (fuel : Nat) :
    ∀ (u : Ubig) (bit : Nat), (flipGo fuel u bit).num.length ≤ max u.num.length (bit / 4 + 2) := by
  induction fuel with
  | zero => intro u bit; simp [flipGo]
  | succ fuel ih =>
    intro u bit
    rw [flipGo_succ]
    by_cases h : bit < u.num.length * 8
    · rw [if_pos h]
      unfold flipByte
      simp
    · rw [if_neg h]
      have h1 := extend_length_upper u bit h
      have := ih (u.extend bit) bit
      omega

theorem set_to_true_length (u : Ubig) (bit : Nat) :
    (u.set_to bit true).num.length ≤ max u.num.length (bit / 4 + 2) := by
  unfold set_to
  by_cases h : bit < u.num.length * 8
  · rw [if_pos h]
    simp only [if_pos trivial]
    simp
  · rw [if_neg h]
    have h1 := extend_length_upper u bit h
    have h2 := flipGo_length 3 (u.extend bit) bit
    show (flipGo 3 (u.extend bit) bit).num.length ≤ _
    omega

/-- All byte values of the vector are genuine bytes. -/
def bytesLT (u : Ubig) : Prop := ∀ b ∈ u.num, b < 256

theorem bytesLT_getD (u : Ubig) (h : u.bytesLT) (i : Nat) : u.num.getD i 0 < 256 := by
  by_cases hi : i < u.num.length
  · rw [List.getD_eq_getElem?_getD, List.getElem?_eq_getElem hi]
    exact h _ (List.getElem_mem hi)
  · rw [List.getD_eq_getElem?_getD, List.getElem?_eq_none (by omega)]
    simp

theorem bytesLT_extendGo (incr : Nat) (num : List Nat) (h : ∀ b ∈ num, b < 256) :
    ∀ b ∈ extendGo incr num, b < 256 := by
  obtain ⟨k, _, he⟩ := extendGo_spec incr num
  rw [he]
  intro b hb
  rcases List.mem_append.mp hb with h1 | h1
  · exact h b h1
  · rw [List.eq_of_mem_replicate h1]; omega

theorem shiftLeft_mod8_lt (k : Nat) : (1 <<< (k % 8)) < 256 := by
  rw [Nat.one_shiftLeft]
  calc 2 ^ (k % 8) ≤ 2 ^ 7 := Nat.pow_le_pow_right (by omega) (by omega)
    _ < 256 := by norm_num

theorem bytesLT_set (u : Ubig) (h : u.bytesLT) (p v : Nat) (hv : v < 256) :
    ∀ b ∈ u.num.set p v, b < 256 := by
  intro b hb
  rcases List.mem_or_eq_of_mem_set hb with h1 | h1
  · exact h b h1
  · omega

theorem bytesLT_flipGo (fuel : Nat) :
    ∀ (u : Ubig) (bit : Nat), u.bytesLT → (flipGo fuel u bit).bytesLT := by
  induction fuel with
  | zero => intro u bit h; exact h
  | succ fuel ih =>
    intro u bit h
    rw [flipGo_succ]
    by_cases hb : bit < u.num.length * 8
    · rw [if_pos hb]
      exact bytesLT_set u h _ _
        (Nat.xor_lt_two_pow (n := 8) (bytesLT_getD u h _) (shiftLeft_mod8_lt bit))
    · rw [if_neg hb]
      exact ih _ _ (bytesLT_extendGo _ _ h)

theorem bytesLT_set_to_true (u : Ubig) (bit : Nat) (h : u.bytesLT) :
    (u.set_to bit true).bytesLT := by
  unfold set_to
  by_cases hb : bit < u.num.length * 8
  · rw [if_pos hb]
    simp only [if_pos trivial]
    exact bytesLT_set u h _ _
      (Nat.or_lt_two_pow (n := 8) (bytesLT_getD u h _) (shiftLeft_mod8_lt bit))
  · rw [if_neg hb]
    exact bytesLT_flipGo 3 _ _ (bytesLT_extendGo _ _ h)

theorem mem_get_seq (u : Ubig) (i : Nat) : i ∈ u.get_seq ↔ u.bit_at i = true := by
  unfold get_seq
  rw [List.mem_flatMap]
  constructor
  · rintro ⟨byte, hbyte, hi⟩
    rw [List.mem_filterMap] at hi
    obtain ⟨bit, hbit, hcond⟩ := hi
    rw [List.mem_range] at hbyte
    rw [List.mem_range] at hbit
    split at hcond
    case isTrue hc =>
      cases hcond
      rw [bit_at_eq_testBit]
      have hdiv : (byte * 8 + bit) / 8 = byte := by omega
      have hmod : (byte * 8 + bit) % 8 = bit := by omega
      rw [hdiv, hmod, Nat.testBit_to_div_mod]
      rw [Nat.shiftRight_eq_div_pow, Nat.and_one_is_mod] at hc
      simpa using hc
    case isFalse => cases hcond
  · intro h
    have hrange : i < u.num.length * 8 := by
      unfold bit_at at h
      split at h
      · omega
      · cases h
    refine ⟨i / 8, List.mem_range.mpr (by omega), ?_⟩
    rw [List.mem_filterMap]
    refine ⟨i % 8, List.mem_range.mpr (by omega), ?_⟩
    rw [bit_at_eq_testBit, Nat.testBit_to_div_mod] at h
    rw [if_pos ?_]
    · congr 1
      omega
    · rw [Nat.shiftRight_eq_div_pow, Nat.and_one_is_mod]
      simpa using h

theorem toSet_new : Ubig.new.toSet = ∅ := by
  ext i
  simp [toSet, new, bit_at]

end Ubig

/-- `AutomatonType` (src/automaton.rs). -/
inductive AutomatonType
  | Det
  | NonDet
  deriving Repr, DecidableEq

/-- `Automaton` (src/automaton.rs).  The Rust field `end` is named `end_`
here because `end` is a Lean keyword. -/
structure Automaton where
  automaton_type : AutomatonType
  size : Nat
  alphabet : Nat
  table : List (Nat × Nat × Nat)
  start : List Nat
  end_ : List Nat
  deriving Repr, DecidableEq

namespace Automaton

/-- `Automaton::get_transition_map`: built by pushing each transition's
destination onto the entry for `(source, symbol)`.  Modelled as a total
function returning `[]` for absent keys (`map.get` returning `None` makes
the callers skip the entry, which is the same as an empty list). -/
def get_transition_map (M : Automaton) : Nat × Nat → List Nat :=
  M.table.foldl
    (fun m t => fun k => if k = (t.1, t.2.1) then m k ++ [t.2.2] else m k)
    (fun _ => [])

/-- `Automaton::get_reverse_transition_map`: same layout keyed by
`(destination, symbol)`, accumulating sources. -/
def get_reverse_transition_map (M : Automaton) : Nat × Nat → List Nat :=
  M.table.foldl
    (fun m t => fun k => if k = (t.2.2, t.2.1) then m k ++ [t.1] else m k)
    (fun _ => [])

theorem foldl_upd_char (l : List (Nat × Nat × Nat)) (key : Nat × Nat × Nat → Nat × Nat)
    (val : Nat × Nat × Nat → Nat) :
    ∀ (m0 : Nat × Nat → List Nat) (k : Nat × Nat),
    (l.foldl (fun m t => fun k => if k = key t then m k ++ [val t] else m k) m0) k
      = m0 k ++ (l.filter (fun t => key t == k)).map val := by
  induction l with
  | nil => intro m0 k; simp
  | cons t l ih =>
    intro m0 k
    rw [List.foldl_cons, ih]
    by_cases h : k = key t
    · have hb : (key t == k) = true := beq_iff_eq.mpr h.symm
      rw [if_pos h, List.filter_cons]
      simp only [hb, if_true]
      rw [List.map_cons, List.append_assoc, List.singleton_append]
    · have hb : (key t == k) = false := beq_eq_false_iff_ne.mpr (fun hc => h hc.symm)
      rw [if_neg h, List.filter_cons]
      simp only [hb, Bool.false_eq_true, if_false]

theorem mem_get_transition_map (M : Automaton) (q a p : Nat) :
    p ∈ M.get_transition_map (q, a) ↔ (q, a, p) ∈ M.table := by
  unfold get_transition_map
  rw [foldl_upd_char M.table (fun t => (t.1, t.2.1)) (fun t => t.2.2) (fun _ => []) (q, a)]
  simp only [List.nil_append, List.mem_map, List.mem_filter, beq_iff_eq]
  constructor
  · rintro ⟨t, ⟨ht, hk⟩, hv⟩
    have h1 : t.1 = q := congrArg Prod.fst hk
    have h2 : t.2.1 = a := congrArg Prod.snd hk
    have : t = (q, a, p) := by
      obtain ⟨t1, t2, t3⟩ := t
      simp only at h1 h2 hv
      rw [h1, h2, hv]
    rwa [this] at ht
  · intro ht
    exact ⟨(q, a, p), ⟨ht, rfl⟩, rfl⟩

theorem mem_get_reverse_transition_map (M : Automaton) (q a p : Nat) :
    p ∈ M.get_reverse_transition_map (q, a) ↔ (p, a, q) ∈ M.table := by
  unfold get_reverse_transition_map
  rw [foldl_upd_char M.table (fun t => (t.2.2, t.2.1)) (fun t => t.1) (fun _ => []) (q, a)]
  simp only [List.nil_append, List.mem_map, List.mem_filter, beq_iff_eq]
  constructor
  · rintro ⟨t, ⟨ht, hk⟩, hv⟩
    have h1 : t.2.2 = q := congrArg Prod.fst hk
    have h2 : t.2.1 = a := congrArg Prod.snd hk
    have : t = (p, a, q) := by
      obtain ⟨t1, t2, t3⟩ := t
      simp only at h1 h2 hv
      rw [h1, h2, hv]
    rwa [this] at ht
  · intro ht
    exact ⟨(p, a, q), ⟨ht, rfl⟩, rfl⟩

theorem length_get_transition_map_eps (M : Automaton) (b : Nat) :
    (M.get_transition_map (b, 0)).length
      = M.table.countP (fun t => t.1 == b && t.2.1 == 0) := by
  unfold get_transition_map
  rw [foldl_upd_char M.table (fun t => (t.1, t.2.1)) (fun t => t.2.2) (fun _ => []) (b, 0)]
  rw [List.nil_append, List.length_map, ← List.countP_eq_length_filter]
  apply List.countP_congr
  intro t _
  constructor
  · intro h
    have h1 := beq_iff_eq.mp h
    have e1 : t.1 = b := congrArg Prod.fst h1
    have e2 : t.2.1 = 0 := congrArg Prod.snd h1
    simp [e1, e2]
  · intro h
    rcases Bool.and_eq_true_iff.mp h with ⟨h1, h2⟩
    have e1 : t.1 = b := by simpa using h1
    have e2 : t.2.1 = 0 := by simpa using h2
    apply beq_iff_eq.mpr
    rw [e1, e2]

/-- An ε-transition edge of the automaton's table (symbol 0). -/
def epsEdge (M : Automaton) (x y : Nat) : Prop := (x, 0, y) ∈ M.table

/-- Reachability by zero or more ε-transitions. -/
def epsReach (M : Automaton) : Nat → Nat → Prop := Relation.ReflTransGen (epsEdge M)

/-- A set of states closed under the ε-transitions of the table. -/
def epsClosedSet (M : Automaton) (T : Set Nat) : Prop :=
  ∀ q ∈ T, ∀ p, epsEdge M q p → p ∈ T

/-- The worklist loop of `Automaton::add_state`, with explicit fuel.
Each popped state is marked before its ε-successors are enqueued. -/
def add_stateGo (tm : Nat × Nat → List Nat) : Nat → Ubig → List Nat → Ubig
  | 0, num, _ => num
  | _ + 1, num, [] => num
  | fuel + 1, num, b :: queue =>
    if num.bit_at b then add_stateGo tm fuel num queue
    else add_stateGo tm fuel (num.set_to b true) (queue ++ tm (b, 0))

/-- Fuel bound for `add_state`: one more than the table length dominates
the worklist potential (queue length plus ε-entries from unmarked states). -/
def epsFuel (M : Automaton) : Nat := M.table.length + 1

/-- `Automaton::add_state` (src/automaton.rs lines 300–313). -/
def add_state (M : Automaton) (tm : Nat × Nat → List Nat) (num : Ubig) (bit : Nat) : Ubig :=
  add_stateGo tm (M.epsFuel) num [bit]

/-- Worklist potential for the `add_state` loop. -/
def epsPhi (M : Automaton) (num : Ubig) (queue : List Nat) : Nat :=
  queue.length + M.table.countP (fun t => t.2.1 == 0 && !(num.bit_at t.1))

theorem countP_add_split {α : Type} (l : List α) (p1 p2 p3 : α → Bool)
    (h : ∀ x ∈ l, (if p1 x then 1 else 0) + (if p2 x then 1 else 0)
      = (if p3 x then (1 : Nat) else 0)) :
    l.countP p1 + l.countP p2 = l.countP p3 := by
  induction l with
  | nil => simp
  | cons x l ih =>
    rw [List.countP_cons, List.countP_cons, List.countP_cons]
    have hx := h x (by simp)
    have hl := ih (fun y hy => h y (by simp [hy]))
    omega

theorem epsPhi_drop (M : Automaton) (num : Ubig) (b : Nat) (hb : num.bit_at b = false) :
    M.table.countP (fun t => t.2.1 == 0 && !((num.set_to b true).bit_at t.1)) +
      (M.get_transition_map (b, 0)).length
      = M.table.countP (fun t => t.2.1 == 0 && !(num.bit_at t.1)) := by
  rw [length_get_transition_map_eps]
  apply countP_add_split
  intro t _
  rw [Ubig.bit_at_set_to_true]
  by_cases h1 : t.1 = b
  · subst h1
    rw [hb]
    by_cases h2 : t.2.1 = 0 <;> simp [h2]
  · have hd : decide (t.1 = b) = false := decide_eq_false h1
    rw [hd]
    have hb2 : (t.1 == b) = false := beq_eq_false_iff_ne.mpr h1
    rw [hb2]
    cases h3 : num.bit_at t.1 <;> cases h4 : (t.2.1 == 0) <;> simp [h3, h4]

theorem add_stateGo_mono (tm : Nat × Nat → List Nat) :
    ∀ fuel (num : Ubig) queue i, num.bit_at i = true →
      (add_stateGo tm fuel num queue).bit_at i = true := by
  intro fuel
  induction fuel with
  | zero => intro num queue i h; exact h
  | succ fuel ih =>
    intro num queue i h
    match queue with
    | [] => exact h
    | b :: rest =>
      show (if num.bit_at b then add_stateGo tm fuel num rest
        else add_stateGo tm fuel (num.set_to b true) (rest ++ tm (b, 0))).bit_at i = true
      by_cases hb : num.bit_at b = true
      · rw [if_pos hb]; exact ih num rest i h
      · rw [if_neg hb]
        apply ih
        rw [Ubig.bit_at_set_to_true, h, Bool.true_or]

theorem add_stateGo_queue (M : Automaton) :
    ∀ fuel (num : Ubig) queue, M.epsPhi num queue ≤ fuel →
      ∀ b ∈ queue, (add_stateGo (M.get_transition_map) fuel num queue).bit_at b = true := by
  intro fuel
  induction fuel with
  | zero =>
    intro num queue hphi b hb
    unfold epsPhi at hphi
    have : queue.length = 0 := by omega
    rw [List.length_eq_zero] at this
    subst this
    cases hb
  | succ fuel ih =>
    intro num queue hphi b hb
    match queue with
    | [] => cases hb
    | b' :: rest =>
      show (if num.bit_at b' then add_stateGo (M.get_transition_map) fuel num rest
        else add_stateGo (M.get_transition_map) fuel (num.set_to b' true)
          (rest ++ M.get_transition_map (b', 0))).bit_at b = true
      unfold epsPhi at hphi
      by_cases hmark : num.bit_at b' = true
      · rw [if_pos hmark]
        rcases List.mem_cons.mp hb with hb1 | hb1
        · subst hb1; exact add_stateGo_mono _ fuel num rest b hmark
        · exact ih num rest (by unfold epsPhi; simp at hphi ⊢; omega) b hb1
      · rw [if_neg hmark]
        have hb' : num.bit_at b' = false := by
          cases h : num.bit_at b'
          · rfl
          · exact absurd h hmark
        have hdrop := M.epsPhi_drop num b' hb'
        have hphi' : M.epsPhi (num.set_to b' true) (rest ++ M.get_transition_map (b', 0)) ≤ fuel := by
          unfold epsPhi
          rw [List.length_append]
          simp only [List.length_cons] at hphi
          omega
        rcases List.mem_cons.mp hb with hb1 | hb1
        · subst hb1
          apply add_stateGo_mono
          rw [Ubig.bit_at_set_to_true]
          simp
        · exact ih _ _ hphi' b (List.mem_append_left _ hb1)

/-- Invariant of the `add_state` loop: every ε-successor of a marked state
is either already marked or pending in the queue. -/
def pendingClosed (M : Automaton) (num : Ubig) (queue : List Nat) : Prop :=
  ∀ q, num.bit_at q = true →
    ∀ p ∈ M.get_transition_map (q, 0), (num.bit_at p = true ∨ p ∈ queue)

theorem add_stateGo_closed (M : Automaton) :
    ∀ fuel (num : Ubig) queue, M.epsPhi num queue ≤ fuel →
      pendingClosed M num queue →
      pendingClosed M (add_stateGo (M.get_transition_map) fuel num queue) [] := by
  intro fuel
  induction fuel with
  | zero =>
    intro num queue hphi hpc
    unfold epsPhi at hphi
    have : queue.length = 0 := by omega
    rw [List.length_eq_zero] at this
    subst this
    exact hpc
  | succ fuel ih =>
    intro num queue hphi hpc
    match queue with
    | [] => exact hpc
    | b' :: rest =>
      show pendingClosed M (if num.bit_at b' then add_stateGo (M.get_transition_map) fuel num rest
        else add_stateGo (M.get_transition_map) fuel (num.set_to b' true)
          (rest ++ M.get_transition_map (b', 0))) []
      unfold epsPhi at hphi
      by_cases hmark : num.bit_at b' = true
      · rw [if_pos hmark]
        apply ih num rest (by unfold epsPhi; simp at hphi ⊢; omega)
        intro q hq p hp
        rcases hpc q hq p hp with h1 | h1
        · exact Or.inl h1
        · rcases List.mem_cons.mp h1 with h2 | h2
          · subst h2; exact Or.inl hmark
          · exact Or.inr h2
      · rw [if_neg hmark]
        have hb' : num.bit_at b' = false := by
          cases h : num.bit_at b'
          · rfl
          · exact absurd h hmark
        have hdrop := M.epsPhi_drop num b' hb'
        apply ih _ _ (by unfold epsPhi; rw [List.length_append]; simp only [List.length_cons] at hphi; omega)
        intro q hq p hp
        rw [Ubig.bit_at_set_to_true] at hq
        rcases Bool.or_eq_true_iff.mp hq with hq1 | hq1
        · rcases hpc q hq1 p hp with h1 | h1
          · left; rw [Ubig.bit_at_set_to_true, h1, Bool.true_or]
          · rcases List.mem_cons.mp h1 with h2 | h2
            · subst h2
              left
              rw [Ubig.bit_at_set_to_true]
              simp
            · exact Or.inr (List.mem_append_left _ h2)
        · have hq2 : q = b' := of_decide_eq_true hq1
          subst hq2
          exact Or.inr (List.mem_append_right _ hp)

theorem add_stateGo_subset (M : Automaton) (T : Set Nat)
    (hT : ∀ q ∈ T, ∀ p ∈ M.get_transition_map (q, 0), p ∈ T) :
    ∀ fuel (num : Ubig) queue, (∀ i, num.bit_at i = true → i ∈ T) → (∀ b ∈ queue, b ∈ T) →
      ∀ i, (add_stateGo (M.get_transition_map) fuel num queue).bit_at i = true → i ∈ T := by
  intro fuel
  induction fuel with
  | zero => intro num queue hnum _ i hi; exact hnum i hi
  | succ fuel ih =>
    intro num queue hnum hqueue i hi
    match queue with
    | [] => exact hnum i hi
    | b' :: rest =>
      rw [show add_stateGo (M.get_transition_map) (fuel + 1) num (b' :: rest)
          = (if num.bit_at b' then add_stateGo (M.get_transition_map) fuel num rest
            else add_stateGo (M.get_transition_map) fuel (num.set_to b' true)
              (rest ++ M.get_transition_map (b', 0))) from rfl] at hi
      by_cases hmark : num.bit_at b' = true
      · rw [if_pos hmark] at hi
        exact ih num rest hnum (fun b hb => hqueue b (List.mem_cons_of_mem _ hb)) i hi
      · rw [if_neg hmark] at hi
        have hb'T : b' ∈ T := hqueue b' (List.mem_cons_self _ _)
        refine ih _ _ ?_ ?_ i hi
        · intro j hj
          rw [Ubig.bit_at_set_to_true] at hj
          rcases Bool.or_eq_true_iff.mp hj with h1 | h1
          · exact hnum j h1
          · rw [of_decide_eq_true h1]; exact hb'T
        · intro b hb
          rcases List.mem_append.mp hb with h1 | h1
          · exact hqueue b (List.mem_cons_of_mem _ h1)
          · exact hT b' hb'T b h1

/-- The set-level meaning of one `add_state` call on an ε-closed
accumulator: it adds exactly the ε-closure of the new bit. -/
theorem add_state_toSet (M : Automaton) (num : Ubig) (bit : Nat)
    (hcl : epsClosedSet M num.toSet) :
    (M.add_state (M.get_transition_map) num bit).toSet
        = num.toSet ∪ {p | epsReach M bit p} ∧
      epsClosedSet M (M.add_state (M.get_transition_map) num bit).toSet := by
  have hphi : M.epsPhi num [bit] ≤ M.epsFuel := by
    unfold epsPhi epsFuel
    have := List.countP_le_length (l := M.table)
      (p := fun t => t.2.1 == 0 && !(num.bit_at t.1))
    simp only [List.length_cons, List.length_nil]
    omega
  have hpc : pendingClosed M num [bit] := by
    intro q hq p hp
    left
    exact hcl q hq p ((M.mem_get_transition_map q 0 p).mp hp)
  have hclosed := M.add_stateGo_closed M.epsFuel num [bit] hphi hpc
  have hcl' : epsClosedSet M (M.add_state (M.get_transition_map) num bit).toSet := by
    intro q hq p hp
    rcases hclosed q hq p ((M.mem_get_transition_map q 0 p).mpr hp) with h1 | h1
    · exact h1
    · cases h1
  refine ⟨?_, hcl'⟩
  apply Set.eq_of_subset_of_subset
  · intro i hi
    refine M.add_stateGo_subset (num.toSet ∪ {p | epsReach M bit p}) ?_ M.epsFuel num [bit] ?_ ?_ i hi
    · intro q hq p hp
      rcases hq with h1 | h1
      · exact Or.inl (hcl q h1 p ((M.mem_get_transition_map q 0 p).mp hp))
      · exact Or.inr (Relation.ReflTransGen.tail h1 ((M.mem_get_transition_map q 0 p).mp hp))
    · intro j hj; exact Or.inl hj
    · intro b hb
      rcases List.mem_cons.mp hb with h1 | h1
      · subst h1; exact Or.inr Relation.ReflTransGen.refl
      · cases h1
  · intro i hi
    rcases hi with h1 | h1
    · exact add_stateGo_mono _ _ num [bit] i h1
    · induction h1 with
      | refl => exact M.add_stateGo_queue M.epsFuel num [bit] hphi bit (by simp)
      | tail hstep hedge ihr => exact hcl' _ ihr _ hedge

/-- The ε-closure computation used at the `add_state` call sites: fold
`add_state` over a list of states starting from the empty bitset. -/
def eps_close (M : Automaton) (S : List Nat) : Ubig :=
  S.foldl (fun ns b => M.add_state (M.get_transition_map) ns b) Ubig.new

theorem foldl_add_state_toSet (M : Automaton) :
    ∀ (L : List Nat) (num : Ubig), epsClosedSet M num.toSet →
      (L.foldl (fun ns b => M.add_state (M.get_transition_map) ns b) num).toSet
          = num.toSet ∪ {p | ∃ b ∈ L, epsReach M b p} ∧
        epsClosedSet M
          ((L.foldl (fun ns b => M.add_state (M.get_transition_map) ns b) num).toSet) := by
  intro L
  induction L with
  | nil =>
    intro num hcl
    refine ⟨?_, hcl⟩
    simp
  | cons b L ih =>
    intro num hcl
    obtain ⟨hset, hcl'⟩ := M.add_state_toSet num b hcl
    obtain ⟨hset2, hcl2⟩ := ih (M.add_state (M.get_transition_map) num b) hcl'
    rw [List.foldl_cons] at *
    refine ⟨?_, hcl2⟩
    rw [hset2, hset]
    ext p
    simp only [Set.mem_union, Set.mem_setOf_eq, List.mem_cons]
    constructor
    · rintro ((h | h) | h)
      · exact Or.inl h
      · exact Or.inr ⟨b, Or.inl rfl, h⟩
      · obtain ⟨c, hc, hr⟩ := h
        exact Or.inr ⟨c, Or.inr hc, hr⟩
    · rintro (h | ⟨c, (hc | hc), hr⟩)
      · exact Or.inl (Or.inl h)
      · subst hc; exact Or.inl (Or.inr hr)
      · exact Or.inr ⟨c, hc, hr⟩

theorem eps_close_toSet (M : Automaton) (S : List Nat) :
    (M.eps_close S).toSet = {p | ∃ b ∈ S, epsReach M b p} ∧
      epsClosedSet M (M.eps_close S).toSet := by
  have h0 : epsClosedSet M Ubig.new.toSet := by
    intro q hq
    rw [Ubig.toSet_new] at hq
    cases hq
  obtain ⟨h1, h2⟩ := M.foldl_add_state_toSet S Ubig.new h0
  refine ⟨?_, h2⟩
  rw [show M.eps_close S = S.foldl (fun ns b => M.add_state (M.get_transition_map) ns b) Ubig.new
    from rfl, h1, Ubig.toSet_new]
  simp

end Automaton

namespace Automaton

/-- `Automaton::get_set_transitions`. -/
def get_set_transitions (map : Nat × Nat → List Nat) (set : Finset Nat) (c : Nat) : Finset Nat :=
  set.biUnion (fun s => (map (s, c)).toFinset)

/-- The rotating scan of `Automaton::replace_in_partition`. -/
def ripGo (replaced : Finset Nat) (reps : List (Finset Nat)) :
    Nat → List (Finset Nat) → Bool × List (Finset Nat)
  | 0, q => (false, q)
  | _ + 1, [] => (false, [])
  | n + 1, x :: rest =>
    if x = replaced then (true, rest ++ reps)
    else ripGo replaced reps n (rest ++ [x])

/-- `Automaton::replace_in_partition`. -/
def replace_in_partition (p : List (Finset Nat)) (replaced : Finset Nat)
    (reps : List (Finset Nat)) : Bool × List (Finset Nat) :=
  ripGo replaced reps p.length p

/-- Frontier update after a split of `r` into `r0 = r ∩ rs` and
`r1 = r \ rs`: replace `r` by `[r1, r0]` when present, otherwise append
whichever of `r0`, `r1` is not larger (ties go to `r0`). -/
def splitFrontierUpd (pf : List (Finset Nat)) (r rs : Finset Nat) : List (Finset Nat) :=
  match replace_in_partition pf r [r \ rs, r ∩ rs] with
  | (true, pf2) => pf2
  | (false, pf2) =>
    if (r ∩ rs).card ≤ (r \ rs).card then pf2 ++ [r ∩ rs] else pf2 ++ [r \ rs]

/-- The `for _ in 0..p.len()` refinement scan of `hopcroft_algo` for one
splitter image `rs`: each popped block `r` is split when both `r ∩ rs` and
`r \ rs` are non-empty, pushing back `r \ rs` then `r ∩ rs`. -/
def splitGo (rs : Finset Nat) :
    Nat → List (Finset Nat) → List (Finset Nat) → List (Finset Nat) × List (Finset Nat)
  | 0, p, pf => (p, pf)
  | _ + 1, [], pf => ([], pf)
  | n + 1, r :: rest, pf =>
    if (r ∩ rs).Nonempty ∧ (r \ rs).Nonempty then
      splitGo rs n (rest ++ [r \ rs, r ∩ rs]) (splitFrontierUpd pf r rs)
    else splitGo rs n (rest ++ [r]) pf

/-- One alphabet symbol `c` of the outer loop body of `hopcroft_algo`. -/
def symbolPass (rev_map : Nat × Nat → List Nat) (set : Finset Nat)
    (pq : List (Finset Nat) × List (Finset Nat)) (c : Nat) :
    List (Finset Nat) × List (Finset Nat) :=
  splitGo (get_set_transitions rev_map set c) pq.1.length pq.1 pq.2

/-- The `while let Some(set) = p_frontier.pop_front()` loop of `hopcroft_algo`. -/
def hopGo (M : Automaton) (rev_map : Nat × Nat → List Nat) :
    Nat → List (Finset Nat) × List (Finset Nat) → Option (List (Finset Nat))
  | 0, ppf => if ppf.2.isEmpty then some ppf.1 else none
  | fuel + 1, ppf =>
    match ppf.2 with
    | [] => some ppf.1
    | set :: rest =>
      hopGo M rev_map fuel ((List.range' 1 M.alphabet).foldl (symbolPass rev_map set) (ppf.1, rest))

/-- The initial partition of `hopcroft_algo`: the non-finals and the finals
(both kept even when empty). -/
def hopInit (M : Automaton) : List (Finset Nat) :=
  [(Finset.range M.size).filter (fun i => i ∉ M.end_.toFinset), M.end_.toFinset]

def hopFuel (M : Automaton) : Nat := 2 * (M.size + M.end_.length) + 8

/-- The final `ret_map` insert loop of `hopcroft_algo`: inserting `s ↦ i`
for `i` ascending and `s` over block `p[i]` leaves each state mapped to the
largest block index containing it (blocks are in fact disjoint, so the
index is unique); absent states (`map.get` = `None`) model the `panic!`
branches of the callers. -/
def retAux (p : List (Finset Nat)) : Nat → Nat → Option Nat
  | 0, _ => none
  | n + 1, s => if s ∈ p.getD n ∅ then some n else retAux p n s

def retMap (p : List (Finset Nat)) : Nat → Option Nat := retAux p p.length

/-- `Automaton::hopcroft_algo`. -/
def hopcroft_algo (M : Automaton) : Option ((Nat → Option Nat) × Nat) :=
  (hopGo M (M.get_reverse_transition_map) (hopFuel M) (hopInit M, hopInit M)).map
    (fun p => (retMap p, p.length))

end Automaton

namespace Automaton

/-- Lexicographic order on transition triples, as Rust derives `Ord` for
`(usize, usize, usize)`. -/
def trLe (a b : Nat × Nat × Nat) : Prop :=
  a.1 < b.1 ∨ (a.1 = b.1 ∧ (a.2.1 < b.2.1 ∨ (a.2.1 = b.2.1 ∧ a.2.2 ≤ b.2.2)))

instance : DecidableRel trLe := fun a b =>
  inferInstanceAs (Decidable (a.1 < b.1 ∨ (a.1 = b.1 ∧ (a.2.1 < b.2.1 ∨
    (a.2.1 = b.2.1 ∧ a.2.2 ≤ b.2.2)))))

instance : IsTotal (Nat × Nat × Nat) trLe :=
  ⟨fun a b => by unfold trLe; omega⟩

instance : IsTrans (Nat × Nat × Nat) trLe :=
  ⟨fun a b c h1 h2 => by unfold trLe at *; omega⟩

/-- `Automaton::get_part_vec_from_vec`: map through the partition map
(`None` models the `panic!` branch), then deduplicate (the `HashSet`
collect). -/
def get_part_vec_from_vec (p : Nat → Option Nat) (s : List Nat) : Option (List Nat) :=
  (s.mapM p).map List.dedup

/-- `Automaton::minimized`. -/
def minimized (M : Automaton) : Option Automaton :=
  match M.automaton_type with
  | AutomatonType.NonDet => some M
  | AutomatonType.Det =>
    if M.size ≤ 2 then some M
    else
      match M.hopcroft_algo with
      | none => none
      | some (pm, len) =>
        match M.table.mapM (fun t =>
            match pm t.1, pm t.2.2 with
            | some t0, some t2 => some (t0, t.2.1, t2)
            | _, _ => none) with
        | none => none
        | some tbl =>
          match get_part_vec_from_vec pm M.start, get_part_vec_from_vec pm M.end_ with
          | some st, some en =>
            some { automaton_type := AutomatonType.Det, size := len, alphabet := M.alphabet,
                   table := (tbl.dedup).insertionSort trLe,
                   start := st.insertionSort (· ≤ ·),
                   end_ := en.insertionSort (· ≤ ·) }
          | _, _ => none

end Automaton

namespace Automaton

/-- Blocks of `p` cover exactly `U`. -/
def blocksCover (p : List (Finset Nat)) (U : Finset Nat) : Prop :=
  ∀ x, x ∈ U ↔ ∃ b ∈ p, x ∈ b

/-- Loop invariant of `hopcroft_algo` on the partition deque: blocks are
pairwise disjoint subsets of `U` covering `U`, with at most the two
initial possibly-empty blocks. -/
structure HopInv (U : Finset Nat) (p : List (Finset Nat)) : Prop where
  disj : p.Pairwise (fun a b => Disjoint a b)
  subU : ∀ b ∈ p, b ⊆ U
  cov : blocksCover p U
  emp : p.countP (fun b => decide (b = ∅)) ≤ 2

theorem HopInv.perm {U : Finset Nat} {p q : List (Finset Nat)} (h : HopInv U p)
    (hpq : p.Perm q) : HopInv U q where
  disj := h.disj.perm hpq (fun {_ _} hd => Disjoint.symm hd)
  subU := fun b hb => h.subU b (hpq.mem_iff.mpr hb)
  cov := fun x => (h.cov x).trans
    ⟨fun ⟨b, hb, hx⟩ => ⟨b, hpq.mem_iff.mp hb, hx⟩,
     fun ⟨b, hb, hx⟩ => ⟨b, hpq.mem_iff.mpr hb, hx⟩⟩
  emp := by rw [← hpq.countP_eq]; exact h.emp

theorem sum_cards_le : ∀ (p : List (Finset Nat)) (U : Finset Nat),
    p.Pairwise (fun a b => Disjoint a b) → (∀ b ∈ p, b ⊆ U) →
    (p.map Finset.card).sum ≤ U.card := by
  intro p
  induction p with
  | nil => intro U _ _; simp
  | cons b rest ih =>
    intro U hd hs
    have hb : b ⊆ U := hs b (by simp)
    have hmono : ∀ c ∈ rest, c ⊆ U \ b := by
      intro c hc x hx
      rw [Finset.mem_sdiff]
      refine ⟨hs c (by simp [hc]) hx, ?_⟩
      intro hxb
      have hdis := (List.pairwise_cons.mp hd).1 c hc
      exact (Finset.disjoint_left.mp hdis) hxb hx
    have h1 := ih (U \ b) (List.pairwise_cons.mp hd).2 hmono
    have hcard : (U \ b).card = U.card - b.card := Finset.card_sdiff hb
    have hble : b.card ≤ U.card := Finset.card_le_card hb
    simp only [List.map_cons, List.sum_cons]
    omega

theorem countP_ne_empty_le_sum : ∀ p : List (Finset Nat),
    p.countP (fun b => !decide (b = ∅)) ≤ (p.map Finset.card).sum := by
  intro p
  induction p with
  | nil => simp
  | cons b rest ih =>
    rw [List.countP_cons]
    simp only [List.map_cons, List.sum_cons]
    by_cases hb : b = ∅
    · have h1 : (!decide (b = ∅)) = false := by rw [decide_eq_true hb]; rfl
      rw [h1]
      simp only [Bool.false_eq_true, if_false]
      omega
    · have h1 : (!decide (b = ∅)) = true := by rw [decide_eq_false hb]; rfl
      have h2 : 0 < b.card := Finset.card_pos.mpr (Finset.nonempty_iff_ne_empty.mpr hb)
      rw [h1, if_pos rfl]
      omega

theorem length_le_of_inv {U : Finset Nat} {p : List (Finset Nat)} (h : HopInv U p) :
    p.length ≤ U.card + 2 := by
  have h1 := List.length_eq_countP_add_countP (p := fun b : Finset Nat => decide (b = ∅)) (l := p)
  have hcong : p.countP (fun a => decide ¬(decide (a = ∅) = true))
      = p.countP (fun b => !decide (b = ∅)) := by
    apply List.countP_congr
    intro x _
    cases h : decide (x = ∅) <;> simp [h]
  rw [hcong] at h1
  have h2 := countP_ne_empty_le_sum p
  have h3 := sum_cards_le p U h.disj h.subU
  have h4 := h.emp
  omega

theorem ripGo_succ_cons (replaced : Finset Nat) (reps : List (Finset Nat)) (n : Nat)
    (x : Finset Nat) (rest : List (Finset Nat)) :
    ripGo replaced reps (n + 1) (x :: rest) =
      if x = replaced then (true, rest ++ reps) else ripGo replaced reps n (rest ++ [x]) := rfl

theorem ripGo_snd_length (replaced : Finset Nat) (reps : List (Finset Nat)) :
    ∀ (n : Nat) (q : List (Finset Nat)),
      ((ripGo replaced reps n q).1 = false ∧ (ripGo replaced reps n q).2.length = q.length) ∨
      ((ripGo replaced reps n q).1 = true ∧
        (ripGo replaced reps n q).2.length + 1 = q.length + reps.length) := by
  intro n
  induction n with
  | zero => intro q; exact Or.inl ⟨rfl, rfl⟩
  | succ n ih =>
    intro q
    match q with
    | [] => exact Or.inl ⟨rfl, rfl⟩
    | x :: rest =>
      rw [ripGo_succ_cons]
      by_cases hx : x = replaced
      · rw [if_pos hx]
        right
        constructor
        · rfl
        · simp only [List.length_append, List.length_cons]
          omega
      · rw [if_neg hx]
        rcases ih (rest ++ [x]) with ⟨h1, h2⟩ | ⟨h1, h2⟩
        · left
          refine ⟨h1, ?_⟩
          rw [h2]
          simp only [List.length_append, List.length_cons, List.length_nil]
        · right
          refine ⟨h1, ?_⟩
          rw [h2]
          simp only [List.length_append, List.length_cons, List.length_nil]

theorem splitFrontierUpd_length (pf : List (Finset Nat)) (r rs : Finset Nat) :
    (splitFrontierUpd pf r rs).length = pf.length + 1 := by
  unfold splitFrontierUpd replace_in_partition
  rcases hrip : ripGo r [r \ rs, r ∩ rs] pf.length pf with ⟨fnd, pf2⟩
  have hlen := ripGo_snd_length r [r \ rs, r ∩ rs] pf.length pf
  rw [hrip] at hlen
  simp only [List.length_cons, List.length_nil] at hlen
  match fnd with
  | true =>
    rcases hlen with ⟨h1, _⟩ | ⟨_, h2⟩
    · cases h1
    · show pf2.length = pf.length + 1
      omega
  | false =>
    rcases hlen with ⟨_, h2⟩ | ⟨h1, _⟩
    · show (if (r ∩ rs).card ≤ (r \ rs).card then pf2 ++ [r ∩ rs] else pf2 ++ [r \ rs]).length
        = pf.length + 1
      by_cases hc : (r ∩ rs).card ≤ (r \ rs).card
      · rw [if_pos hc]
        simp only [List.length_append, List.length_cons, List.length_nil]
        omega
      · rw [if_neg hc]
        simp only [List.length_append, List.length_cons, List.length_nil]
        omega
    · cases h1

theorem HopInv.split {U : Finset Nat} {r : Finset Nat} {rest : List (Finset Nat)}
    (h : HopInv U (r :: rest)) (rs : Finset Nat)
    (hc : (r ∩ rs).Nonempty ∧ (r \ rs).Nonempty) :
    HopInv U (rest ++ [r \ rs, r ∩ rs]) where
  disj := by
    rw [List.pairwise_append]
    refine ⟨(List.pairwise_cons.mp h.disj).2, ?_, ?_⟩
    · refine List.pairwise_cons.mpr ⟨?_, by simp⟩
      intro b hb
      rcases List.mem_singleton.mp hb with rfl
      exact Finset.disjoint_sdiff_inter r rs
    · intro b hb c hcm
      have hrb : Disjoint r b := (List.pairwise_cons.mp h.disj).1 b hb
      have hcr : c ⊆ r := by
        rcases List.mem_cons.mp hcm with rfl | hcm2
        · exact Finset.sdiff_subset
        · rcases List.mem_singleton.mp hcm2 with rfl
          exact Finset.inter_subset_left
      refine Finset.disjoint_left.mpr ?_
      intro a hab hac
      exact Finset.disjoint_left.mp hrb.symm hab (hcr hac)
  subU := by
    intro b hb
    rcases List.mem_append.mp hb with hb1 | hb1
    · exact h.subU b (List.mem_cons_of_mem _ hb1)
    · have hrU : r ⊆ U := h.subU r (List.mem_cons_self _ _)
      rcases List.mem_cons.mp hb1 with rfl | hb2
      · exact Finset.sdiff_subset.trans hrU
      · rcases List.mem_singleton.mp hb2 with rfl
        exact Finset.inter_subset_left.trans hrU
  cov := by
    intro x
    rw [h.cov x]
    constructor
    · rintro ⟨b, hb, hx⟩
      rcases List.mem_cons.mp hb with rfl | hb2
      · by_cases hxrs : x ∈ rs
        · exact ⟨b ∩ rs, by simp, Finset.mem_inter.mpr ⟨hx, hxrs⟩⟩
        · exact ⟨b \ rs, by simp, Finset.mem_sdiff.mpr ⟨hx, hxrs⟩⟩
      · exact ⟨b, List.mem_append_left _ hb2, hx⟩
    · rintro ⟨b, hb, hx⟩
      rcases List.mem_append.mp hb with hb1 | hb1
      · exact ⟨b, List.mem_cons_of_mem _ hb1, hx⟩
      · rcases List.mem_cons.mp hb1 with rfl | hb2
        · exact ⟨r, List.mem_cons_self _ _, (Finset.mem_sdiff.mp hx).1⟩
        · rcases List.mem_singleton.mp hb2 with rfl
          exact ⟨r, List.mem_cons_self _ _, (Finset.mem_inter.mp hx).1⟩
  emp := by
    rw [List.countP_append]
    have h0 : ((r \ rs) = ∅) = False := by
      simp only [eq_iff_iff, iff_false]
      exact Finset.nonempty_iff_ne_empty.mp hc.2
    have h1 : ((r ∩ rs) = ∅) = False := by
      simp only [eq_iff_iff, iff_false]
      exact Finset.nonempty_iff_ne_empty.mp hc.1
    have h2 : List.countP (fun b => decide (b = ∅)) [r \ rs, r ∩ rs] = 0 := by
      simp [List.countP_cons, h0, h1]
    have h3 := h.emp
    rw [List.countP_cons] at h3
    omega

theorem splitGo_succ_cons (rs : Finset Nat) (n : Nat) (r : Finset Nat)
    (rest pf : List (Finset Nat)) :
    splitGo rs (n + 1) (r :: rest) pf =
      if (r ∩ rs).Nonempty ∧ (r \ rs).Nonempty then
        splitGo rs n (rest ++ [r \ rs, r ∩ rs]) (splitFrontierUpd pf r rs)
      else splitGo rs n (rest ++ [r]) pf := rfl

theorem splitGo_inv (rs U : Finset Nat) :
    ∀ (n : Nat) (p pf : List (Finset Nat)), HopInv U p →
      HopInv U (splitGo rs n p pf).1 ∧
      (splitGo rs n p pf).1.length + pf.length = p.length + (splitGo rs n p pf).2.length ∧
      p.length ≤ (splitGo rs n p pf).1.length := by
  intro n
  induction n with
  | zero => intro p pf h; exact ⟨h, by rfl, le_refl _⟩
  | succ n ih =>
    intro p pf h
    match p with
    | [] => exact ⟨h, by rfl, by simp [splitGo]⟩
    | r :: rest =>
      rw [splitGo_succ_cons]
      by_cases hc : (r ∩ rs).Nonempty ∧ (r \ rs).Nonempty
      · rw [if_pos hc]
        obtain ⟨h1, h2, h3⟩ := ih (rest ++ [r \ rs, r ∩ rs]) (splitFrontierUpd pf r rs) (h.split rs hc)
        refine ⟨h1, ?_, ?_⟩
        · rw [splitFrontierUpd_length] at h2
          simp only [List.length_append, List.length_cons, List.length_nil] at h2 ⊢
          omega
        · simp only [List.length_append, List.length_cons, List.length_nil] at h3 ⊢
          omega
      · rw [if_neg hc]
        have hperm : (r :: rest).Perm (rest ++ [r]) := (List.perm_append_singleton r rest).symm
        obtain ⟨h1, h2, h3⟩ := ih (rest ++ [r]) pf (h.perm hperm)
        refine ⟨h1, ?_, ?_⟩
        · rw [← hperm.length_eq] at h2
          exact h2
        · rw [← hperm.length_eq] at h3
          exact h3

theorem symbolPassFold_inv (rev_map : Nat × Nat → List Nat) (set U : Finset Nat) :
    ∀ (syms : List Nat) (p pf : List (Finset Nat)), HopInv U p →
      HopInv U (syms.foldl (symbolPass rev_map set) (p, pf)).1 ∧
      (syms.foldl (symbolPass rev_map set) (p, pf)).1.length + pf.length
        = p.length + (syms.foldl (symbolPass rev_map set) (p, pf)).2.length ∧
      p.length ≤ (syms.foldl (symbolPass rev_map set) (p, pf)).1.length := by
  intro syms
  induction syms with
  | nil => intro p pf h; exact ⟨h, rfl, le_refl _⟩
  | cons c cs ih =>
    intro p pf h
    rw [List.foldl_cons]
    obtain ⟨h1, h2, h3⟩ :=
      splitGo_inv (get_set_transitions rev_map set c) U p.length p pf h
    rcases hstep : splitGo (get_set_transitions rev_map set c) p.length p pf with ⟨p1, pf1⟩
    rw [hstep] at h1 h2 h3
    dsimp only at h1 h2 h3
    have hsp : symbolPass rev_map set (p, pf) c = (p1, pf1) := by
      unfold symbolPass
      exact hstep
    rw [hsp]
    obtain ⟨g1, g2, g3⟩ := ih p1 pf1 h1
    exact ⟨g1, by omega, by omega⟩

theorem hopGo_some (M : Automaton) (rev_map : Nat × Nat → List Nat) (U : Finset Nat) :
    ∀ (fuel : Nat) (p pf : List (Finset Nat)), HopInv U p →
      pf.length + 2 * (U.card + 2) ≤ fuel + 2 * p.length →
      ∃ p', hopGo M rev_map fuel (p, pf) = some p' ∧ HopInv U p' := by
  intro fuel
  induction fuel with
  | zero =>
    intro p pf h hf
    have hlen := length_le_of_inv h
    match pf with
    | [] => exact ⟨p, rfl, h⟩
    | x :: rest =>
      exfalso
      simp only [List.length_cons] at hf
      omega
  | succ fuel ih =>
    intro p pf h hf
    match pf with
    | [] => exact ⟨p, rfl, h⟩
    | set :: rest =>
      obtain ⟨h1, h2, h3⟩ := symbolPassFold_inv rev_map set U (List.range' 1 M.alphabet) p rest h
      rcases hres : (List.range' 1 M.alphabet).foldl (symbolPass rev_map set) (p, rest)
        with ⟨p1, pf1⟩
      rw [hres] at h1 h2 h3
      dsimp only at h1 h2 h3
      simp only [List.length_cons] at hf
      obtain ⟨p', hp', hinv⟩ := ih p1 pf1 h1 (by omega)
      refine ⟨p', ?_, hinv⟩
      show hopGo M rev_map fuel ((List.range' 1 M.alphabet).foldl (symbolPass rev_map set) (p, rest))
        = some p'
      rw [hres]
      exact hp'

/-- The universe of states the Hopcroft partition covers:
`[0, size)` together with whatever the accept list mentions. -/
def hopU (M : Automaton) : Finset Nat := Finset.range M.size ∪ M.end_.toFinset

theorem hopInit_inv (M : Automaton) : HopInv (hopU M) (hopInit M) where
  disj := by
    refine List.pairwise_cons.mpr ⟨?_, by simp⟩
    intro b hb
    rcases List.mem_singleton.mp hb with rfl
    rw [Finset.disjoint_left]
    intro x hx
    exact (Finset.mem_filter.mp hx).2
  subU := by
    intro b hb
    rcases List.mem_cons.mp hb with rfl | hb2
    · exact (Finset.filter_subset _ _).trans Finset.subset_union_left
    · rcases List.mem_singleton.mp hb2 with rfl
      exact Finset.subset_union_right
  cov := by
    intro x
    unfold hopU
    rw [Finset.mem_union]
    constructor
    · rintro (hx | hx)
      · by_cases hf : x ∈ M.end_.toFinset
        · exact ⟨M.end_.toFinset, List.mem_cons_of_mem _ (List.mem_singleton_self _), hf⟩
        · exact ⟨(Finset.range M.size).filter (fun i => i ∉ M.end_.toFinset),
            List.mem_cons_self _ _, Finset.mem_filter.mpr ⟨hx, hf⟩⟩
      · exact ⟨M.end_.toFinset, List.mem_cons_of_mem _ (List.mem_singleton_self _), hx⟩
    · rintro ⟨b, hb, hx⟩
      rcases List.mem_cons.mp hb with rfl | hb2
      · exact Or.inl (Finset.mem_of_mem_filter x hx)
      · rcases List.mem_singleton.mp hb2 with rfl
        exact Or.inr hx
  emp := by
    have h1 : (hopInit M).length = 2 := rfl
    have h2 := List.countP_le_length (fun b : Finset Nat => decide (b = ∅)) (l := hopInit M)
    omega

theorem hopU_card_le (M : Automaton) : (hopU M).card ≤ M.size + M.end_.length := by
  calc (hopU M).card ≤ (Finset.range M.size).card + M.end_.toFinset.card :=
        Finset.card_union_le _ _
    _ ≤ M.size + M.end_.length := by
        rw [Finset.card_range]
        exact Nat.add_le_add_left M.end_.toFinset_card_le _

theorem hopcroft_total (M : Automaton) :
    ∃ p', hopGo M (M.get_reverse_transition_map) (hopFuel M) (hopInit M, hopInit M) = some p' ∧
      HopInv (hopU M) p' := by
  apply hopGo_some M (M.get_reverse_transition_map) (hopU M) (hopFuel M) (hopInit M) (hopInit M)
    (hopInit_inv M)
  have h1 := hopU_card_le M
  show (hopInit M).length + _ ≤ _ + 2 * (hopInit M).length
  unfold hopFuel hopInit
  simp only [List.length_cons, List.length_nil]
  omega

theorem retAux_eq_some (p : List (Finset Nat)) :
    ∀ (n s i : Nat), retAux p n s = some i → i < n ∧ s ∈ p.getD i ∅ := by
  intro n
  induction n with
  | zero => intro s i h; cases h
  | succ n ih =>
    intro s i h
    unfold retAux at h
    by_cases hs : s ∈ p.getD n ∅
    · rw [if_pos hs] at h
      cases h
      exact ⟨Nat.lt_succ_self n, hs⟩
    · rw [if_neg hs] at h
      obtain ⟨h1, h2⟩ := ih s i h
      exact ⟨Nat.lt_succ_of_lt h1, h2⟩

theorem retAux_total (p : List (Finset Nat)) :
    ∀ (n s : Nat), (∃ i < n, s ∈ p.getD i ∅) → ∃ i, retAux p n s = some i := by
  intro n
  induction n with
  | zero =>
    rintro s ⟨i, hi, _⟩
    omega
  | succ n ih =>
    rintro s ⟨i, hi, hs⟩
    unfold retAux
    by_cases hmem : s ∈ p.getD n ∅
    · exact ⟨n, if_pos hmem⟩
    · rw [if_neg hmem]
      apply ih
      refine ⟨i, ?_, hs⟩
      rcases Nat.lt_succ_iff_lt_or_eq.mp hi with h1 | h1
      · exact h1
      · subst h1
        exact absurd hs hmem

end Automaton

namespace Automaton

/-- Well-formedness of an automaton per the spec's data model (§3): every
state id mentioned anywhere is below `size` and symbols are at most
`alphabet`. -/
def WellFormed (M : Automaton) : Prop :=
  (∀ t ∈ M.table, t.1 < M.size ∧ t.2.1 ≤ M.alphabet ∧ t.2.2 < M.size) ∧
  (∀ s ∈ M.start, s < M.size) ∧
  (∀ s ∈ M.end_, s < M.size)

instance (M : Automaton) : Decidable (WellFormed M) := by
  unfold WellFormed
  infer_instance

theorem hopU_eq_range (M : Automaton) (hwf : WellFormed M) :
    hopU M = Finset.range M.size := by
  unfold hopU
  apply Finset.union_eq_left.mpr
  intro x hx
  rw [Finset.mem_range]
  exact hwf.2.2 x (List.mem_toFinset.mp hx)

theorem retMap_total_on_hopU (M : Automaton) {p : List (Finset Nat)}
    (hinv : HopInv (hopU M) p) :
    ∀ s ∈ hopU M, ∃ i, retMap p s = some i ∧ i < p.length := by
  intro s hsU
  obtain ⟨b, hb, hsb⟩ := (hinv.cov s).mp hsU
  obtain ⟨j, hj, hbj⟩ := List.getElem_of_mem hb
  have hgd : s ∈ p.getD j ∅ := by
    rw [List.getD_eq_getElem?_getD, List.getElem?_eq_getElem hj]
    show s ∈ p[j]
    rw [hbj]
    exact hsb
  obtain ⟨i, hi⟩ := retAux_total p p.length s ⟨j, hj, hgd⟩
  obtain ⟨hlt, _⟩ := retAux_eq_some p p.length s i hi
  exact ⟨i, hi, hlt⟩

/-- C7: for a well-formed DFA input with `size > 2`, the final partition
computed by `hopcroft_algo` partitions `[0, size)`: its blocks are pairwise
disjoint and cover every state id in `[0, size)`, and the state-to-block
map is total on `[0, size)` and maps into `[0, number of blocks)`. -/
theorem hopcroft_algo_partitions (M : Automaton)
    (hdet : M.automaton_type = AutomatonType.Det)
    (hwf : WellFormed M) (hsz : 2 < M.size) :
    ∃ p, hopGo M (M.get_reverse_transition_map) (hopFuel M) (hopInit M, hopInit M) = some p ∧
      M.hopcroft_algo = some (retMap p, p.length) ∧
      p.Pairwise (fun a b => Disjoint a b) ∧
      (∀ x, x ∈ Finset.range M.size ↔ ∃ b ∈ p, x ∈ b) ∧
      (∀ s, s < M.size → ∃ i, retMap p s = some i ∧ i < p.length) := by
  obtain ⟨p, hp, hinv⟩ := hopcroft_total M
  refine ⟨p, hp, ?_, hinv.disj, ?_, ?_⟩
  · unfold hopcroft_algo
    rw [hp]
    rfl
  · intro x
    rw [← hopU_eq_range M hwf]
    exact hinv.cov x
  · intro s hs
    apply retMap_total_on_hopU M hinv
    rw [hopU_eq_range M hwf]
    exact Finset.mem_range.mpr hs

theorem mapM_isSome {α β : Type} (f : α → Option β) :
    ∀ l : List α, (∀ x ∈ l, (f x).isSome = true) → (l.mapM f).isSome = true := by
  intro l
  induction l with
  | nil => intro _; rfl
  | cons a l ih =>
    intro h
    rw [List.mapM_cons]
    obtain ⟨b, hb⟩ := Option.isSome_iff_exists.mp (h a (List.mem_cons_self _ _))
    obtain ⟨bs, hbs⟩ :=
      Option.isSome_iff_exists.mp (ih (fun x hx => h x (List.mem_cons_of_mem _ hx)))
    rw [hb, hbs]
    rfl

theorem retMap_total_lt_size (M : Automaton) {p : List (Finset Nat)}
    (hinv : HopInv (hopU M) p) (s : Nat) (hs : s < M.size) :
    (retMap p s).isSome = true := by
  obtain ⟨i, hi, _⟩ := retMap_total_on_hopU M hinv s
    (Finset.mem_union_left _ (Finset.mem_range.mpr hs))
  rw [hi]
  rfl

/-- Under well-formed input, `minimized` reaches none of its `panic!`
branches ( the partition-map lookups all succeed) and its Hopcroft loop
terminates: the result is `some`. -/
theorem minimized_isSome (M : Automaton) (hwf : WellFormed M) :
    M.minimized.isSome = true := by
  unfold minimized
  cases htype : M.automaton_type with
  | NonDet => rfl
  | Det =>
    by_cases hsz : M.size ≤ 2
    · rw [if_pos hsz]
      rfl
    · rw [if_neg hsz]
      obtain ⟨p, hp, hinv⟩ := hopcroft_total M
      have halg : M.hopcroft_algo = some (retMap p, p.length) := by
        unfold hopcroft_algo
        rw [hp]
        rfl
      rw [halg]
      dsimp only
      have htbl : (M.table.mapM (fun (t : Nat × Nat × Nat) =>
          match retMap p t.1, retMap p t.2.2 with
          | some t0, some t2 => some (t0, t.2.1, t2)
          | _, _ => none)).isSome = true := by
        apply mapM_isSome
        intro t ht
        obtain ⟨i1, h1⟩ :=
          Option.isSome_iff_exists.mp (retMap_total_lt_size M hinv t.1 (hwf.1 t ht).1)
        obtain ⟨i2, h2⟩ :=
          Option.isSome_iff_exists.mp (retMap_total_lt_size M hinv t.2.2 (hwf.1 t ht).2.2)
        rw [h1, h2]
        rfl
      obtain ⟨tbl, htbl2⟩ := Option.isSome_iff_exists.mp htbl
      rw [htbl2]
      dsimp only
      have hst : ∃ v, M.start.mapM (retMap p) = some v :=
        Option.isSome_iff_exists.mp
          (mapM_isSome (retMap p) M.start
            (fun s hs => retMap_total_lt_size M hinv s (hwf.2.1 s hs)))
      have hen : ∃ v, M.end_.mapM (retMap p) = some v :=
        Option.isSome_iff_exists.mp
          (mapM_isSome (retMap p) M.end_
            (fun s hs => retMap_total_lt_size M hinv s (hwf.2.2 s hs)))
      obtain ⟨sv, hsv⟩ := hst
      obtain ⟨ev, hev⟩ := hen
      have h1 : get_part_vec_from_vec (retMap p) M.start = some sv.dedup := by
        unfold get_part_vec_from_vec
        rw [hsv]
        rfl
      have h2 : get_part_vec_from_vec (retMap p) M.end_ = some ev.dedup := by
        unfold get_part_vec_from_vec
        rw [hev]
        rfl
      rw [h1, h2]
      rfl

/-- A complete one-symbol DFA with three states and empty accept set.  Its
minimal DFA has a single state. -/
def exC5 : Automaton :=
  ⟨AutomatonType.Det, 3, 1, [(0, 1, 0), (1, 1, 1), (2, 1, 2)], [0], []⟩

/-- An incomplete one-symbol DFA (a three-state chain) with empty accept
set. -/
def exC6 : Automaton :=
  ⟨AutomatonType.Det, 3, 1, [(0, 1, 1), (1, 1, 2)], [0], []⟩

end Automaton

open Automaton in
/-- Witness: `hopcroft_algo_partitions` applied to the concrete
well-formed DFA `exC5` of size 3. -/
theorem hopcroft_algo_partitions_witness :
    ∃ p, hopGo exC5 (exC5.get_reverse_transition_map) (hopFuel exC5) (hopInit exC5, hopInit exC5)
        = some p ∧
      exC5.hopcroft_algo = some (retMap p, p.length) ∧
      p.Pairwise (fun a b => Disjoint a b) ∧
      (∀ x, x ∈ Finset.range exC5.size ↔ ∃ b ∈ p, x ∈ b) ∧
      (∀ s, s < exC5.size → ∃ i, retMap p s = some i ∧ i < p.length) :=
  hopcroft_algo_partitions exC5 rfl (by decide) (by decide)

open Automaton in
/-- C5 evidence: on `exC5` (accept set empty) the initial partition keeps
the empty finals block, the final partition still contains `∅`, and the
reported number of partitions is `2` — the empty block is counted, where
the spec's "omit empty parts" rule would report `1`. -/
theorem hopcroft_counts_empty_block :
    hopInit exC5 = [{0, 1, 2}, ∅] ∧
    hopGo exC5 (exC5.get_reverse_transition_map) (hopFuel exC5) (hopInit exC5, hopInit exC5)
      = some [{0, 1, 2}, ∅] ∧
    (exC5.hopcroft_algo).map Prod.snd = some 2 := by
  refine ⟨by decide, by decide, ?_⟩
  have h : hopGo exC5 (exC5.get_reverse_transition_map) (hopFuel exC5)
      (hopInit exC5, hopInit exC5) = some [{0, 1, 2}, ∅] := by decide
  unfold hopcroft_algo
  rw [h]
  rfl

set_option maxHeartbeats 2000000 in
open Automaton in
/-- C6 evidence: minimization is not idempotent on `exC6`; the first
`minimized` call even grows this size-3 DFA to size 4, and a second call
produces a different automaton. -/
theorem minimized_not_idempotent :
    exC6.minimized.bind Automaton.minimized ≠ exC6.minimized ∧
    (exC6.minimized).map Automaton.size = some 4 := by
  refine ⟨by decide, by decide⟩

namespace Automaton

/-- State of the `rabin_scott` exploration loop. -/
structure RSState where
  transitions : List (Nat × Nat × Nat)
  accept_states : List Nat
  num_mapper : List (Ubig × Nat)
  bookmark : Nat
  frontier : List Ubig
  deriving Repr

/-- Lookup in the subset→id `HashMap`.  The `Hash` impl of `Ubig` hashes
the raw byte vector, so the map distinguishes keys exactly by their byte
vectors; modelled as an association list keyed by `num`. -/
def mapperGet (m : List (Ubig × Nat)) (u : Ubig) : Option Nat :=
  (m.find? (fun q => q.1.num == u.num)).map Prod.snd

/-- The `new_s` computation for a popped subset `next` and symbol `a`:
fold `add_state` over the destinations of every set bit of `next`. -/
def rsNewS (M : Automaton) (tm : Nat × Nat → List Nat) (next : Ubig) (a : Nat) : Ubig :=
  next.get_seq.foldl
    (fun ns s => (tm (s, a)).foldl (fun ns t => M.add_state tm ns t) ns)
    Ubig.new

/-- The `if !num_mapper.contains_key(&new_s)` insertion block of
`rabin_scott`: allocate the next id, record acceptance, enqueue. -/
def rsInsert (M : Automaton) (st : RSState) (new_s : Ubig) : RSState :=
  if (mapperGet st.num_mapper new_s).isSome then st
  else
    { st with
      num_mapper := st.num_mapper ++ [(new_s, st.bookmark)],
      bookmark := st.bookmark + 1,
      accept_states :=
        if M.end_.any (fun s => new_s.bit_at s) then st.accept_states ++ [st.bookmark]
        else st.accept_states,
      frontier := st.frontier ++ [new_s] }

/-- The per-symbol body of the `rabin_scott` exploration loop; `none`
models the two `panic!` lookups. -/
def rsSymStep (M : Automaton) (tm : Nat × Nat → List Nat) (next : Ubig)
    (st : RSState) (a : Nat) : Option RSState :=
  match mapperGet (rsInsert M st (rsNewS M tm next a)).num_mapper (rsNewS M tm next a),
      mapperGet (rsInsert M st (rsNewS M tm next a)).num_mapper next with
  | some num, some s_n =>
    some { rsInsert M st (rsNewS M tm next a) with
           transitions := (rsInsert M st (rsNewS M tm next a)).transitions ++ [(s_n, a, num)] }
  | _, _ => none

/-- The frontier loop of `rabin_scott` (the `while let Some(next) =
frontier.pop_front()` loop), with fuel; `none` on fuel exhaustion or on a
`panic!` branch inside. -/
def rsLoop (M : Automaton) (tm : Nat × Nat → List Nat) : Nat → RSState → Option RSState
  | 0, st => if st.frontier.isEmpty then some st else none
  | fuel + 1, st =>
    match st.frontier with
    | [] => some st
    | next :: rest =>
      ((List.range' 1 M.alphabet).foldlM (rsSymStep M tm next)
        { st with frontier := rest }).bind (rsLoop M tm fuel)

/-- The initial state of `rabin_scott`: the ε-closure of the start states
gets id 0, is queued, and is marked accepting when it meets `end`. -/
def rsInit (M : Automaton) (tm : Nat × Nat → List Nat) : RSState :=
  let start_state := M.start.foldl (fun num s => M.add_state tm num s) Ubig.new
  { transitions := [],
    accept_states := if M.end_.any (fun s => start_state.bit_at s) then [0] else [],
    num_mapper := [(start_state, 0)],
    bookmark := 1,
    frontier := [start_state] }

/-- Upper bound on the bit positions ever inserted into a subset bitset:
start states and transition destinations (ε-closure only adds
destinations). -/
def rsMaxBit (M : Automaton) : Nat :=
  (M.start ++ M.table.map (fun t => t.2.2)).foldr max 0

/-- Bound on the byte-vector length of any subset bitset that arises. -/
def rsLmax (M : Automaton) : Nat := rsMaxBit M / 4 + 2

/-- Fuel for the frontier loop: strictly more than the number of byte
vectors of length at most `rsLmax`, which bounds the number of distinct
subset keys and hence the number of loop iterations. -/
def rsFuel (M : Automaton) : Nat := 257 ^ (rsLmax M + 1) + 1

/-- `Automaton::rabin_scott`: returns (transitions, number of states,
start states, end states). -/
def rabin_scott (M : Automaton) :
    Option (List (Nat × Nat × Nat) × Nat × List Nat × List Nat) :=
  (rsLoop M (M.get_transition_map) (rsFuel M) (rsInit M (M.get_transition_map))).map
    (fun st => (st.transitions, st.num_mapper.length, [0], st.accept_states))

/-- `Automaton::determinized`.  The `none` branch of `rabin_scott` is
provably unreachable (`rabin_scott_isSome`); it falls back to
`Automaton::empty` only to keep the function total. -/
def determinized (M : Automaton) : Automaton :=
  match M.automaton_type with
  | AutomatonType.Det =>
    ⟨AutomatonType.Det, M.size, M.alphabet, M.table, M.start, M.end_⟩
  | AutomatonType.NonDet =>
    match M.rabin_scott with
    | some (transitions, a_size, a_start, a_end) =>
      ⟨AutomatonType.Det, a_size, M.alphabet, transitions, a_start, a_end⟩
    | none => ⟨AutomatonType.Det, 0, 0, [], [], []⟩

end Automaton

namespace Automaton

/-- NFA word reachability: `wordReach M w q p` holds when `p` is reachable
from `q` reading `w`, with ε-moves (symbol-0 transitions) interleaved. -/
def wordReach (M : Automaton) : List Nat → Nat → Nat → Prop
  | [], q, p => epsReach M q p
  | a :: w, q, p => ∃ r s, epsReach M q r ∧ (r, a, s) ∈ M.table ∧ wordReach M w s p

/-- NFA acceptance: the language of the automaton read as an NFA with
ε-transitions encoded as symbol 0. -/
def nfaAccepts (M : Automaton) (w : List Nat) : Prop :=
  ∃ s ∈ M.start, ∃ f ∈ M.end_, wordReach M w s f

/-- ε-closure of a set of states. -/
def epsCloseSet (M : Automaton) (S : Set Nat) : Set Nat := {p | ∃ s ∈ S, epsReach M s p}

/-- One-symbol successor set. -/
def moveSet (M : Automaton) (S : Set Nat) (a : Nat) : Set Nat :=
  {p | ∃ q ∈ S, (q, a, p) ∈ M.table}

/-- One subset-construction step: move then ε-close. -/
def stepSet (M : Automaton) (S : Set Nat) (a : Nat) : Set Nat :=
  epsCloseSet M (moveSet M S a)

theorem wordReach_iff_stepFold (M : Automaton) :
    ∀ (w : List Nat) (S : Set Nat) (p : Nat),
      (∃ s ∈ S, wordReach M w s p) ↔ p ∈ w.foldl (stepSet M) (epsCloseSet M S) := by
  intro w
  induction w with
  | nil =>
    intro S p
    exact Iff.rfl
  | cons a w ih =>
    intro S p
    rw [List.foldl_cons]
    have hstep : stepSet M (epsCloseSet M S) a
        = epsCloseSet M (moveSet M (epsCloseSet M S) a) := rfl
    rw [hstep, ← ih (moveSet M (epsCloseSet M S) a) p]
    constructor
    · rintro ⟨s, hs, r, t, hreach, htr, hw⟩
      exact ⟨t, ⟨r, ⟨s, hs, hreach⟩, htr⟩, hw⟩
    · rintro ⟨t, ⟨r, ⟨s, hs, hreach⟩, htr⟩, hw⟩
      exact ⟨s, hs, r, t, hreach, htr, hw⟩

/-- One deterministic step on a produced transition table: the first
matching entry. -/
def dfaDelta (M' : Automaton) (q a : Nat) : Option Nat :=
  (M'.table.find? (fun t => t.1 == q && t.2.1 == a)).map (fun t => t.2.2)

/-- Deterministic run from state `q` over word `w`. -/
def dfaRun (M' : Automaton) (q : Nat) (w : List Nat) : Option Nat :=
  w.foldlM (dfaDelta M') q

/-- Word acceptance of a produced (deterministic) automaton: a run from a
start state ends in an accept state. -/
def dfaAccepts (M' : Automaton) (w : List Nat) : Bool :=
  M'.start.any (fun q0 =>
    match dfaRun M' q0 w with
    | some qf => M'.end_.contains qf
    | none => false)

/-- The set computed by `new_s`'s nested fold (over the set bits of the
popped subset and the `(s, a)` transition destinations). -/
theorem nested_fold_toSet (M : Automaton) (a : Nat) :
    ∀ (L : List Nat) (num : Ubig), epsClosedSet M num.toSet →
      ((L.foldl (fun ns s => (M.get_transition_map (s, a)).foldl
          (fun ns t => M.add_state (M.get_transition_map) ns t) ns) num).toSet
        = num.toSet ∪ {p | ∃ s ∈ L, ∃ t ∈ M.get_transition_map (s, a), epsReach M t p}) ∧
      epsClosedSet M (L.foldl (fun ns s => (M.get_transition_map (s, a)).foldl
          (fun ns t => M.add_state (M.get_transition_map) ns t) ns) num).toSet := by
  intro L
  induction L with
  | nil =>
    intro num hcl
    refine ⟨by simp, hcl⟩
  | cons s L ih =>
    intro num hcl
    rw [List.foldl_cons]
    obtain ⟨hset, hcl'⟩ := M.foldl_add_state_toSet (M.get_transition_map (s, a)) num hcl
    obtain ⟨hset2, hcl2⟩ := ih _ hcl'
    refine ⟨?_, hcl2⟩
    rw [hset2, hset]
    ext p
    simp only [Set.mem_union, Set.mem_setOf_eq, List.mem_cons]
    constructor
    · rintro ((h | h) | h)
      · exact Or.inl h
      · obtain ⟨t, ht, hr⟩ := h
        exact Or.inr ⟨s, Or.inl rfl, t, ht, hr⟩
      · obtain ⟨c, hc, hr⟩ := h
        exact Or.inr ⟨c, Or.inr hc, hr⟩
    · rintro (h | ⟨c, (hc | hc), hr⟩)
      · exact Or.inl (Or.inl h)
      · subst hc
        exact Or.inl (Or.inr hr)
      · exact Or.inr ⟨c, hc, hr⟩

/-- `new_s` computes exactly one subset-construction step of the popped
subset. -/
theorem rsNewS_toSet (M : Automaton) (next : Ubig) (a : Nat) :
    (rsNewS M (M.get_transition_map) next a).toSet = stepSet M next.toSet a ∧
    epsClosedSet M (rsNewS M (M.get_transition_map) next a).toSet := by
  have h0 : epsClosedSet M Ubig.new.toSet := by
    intro q hq
    rw [Ubig.toSet_new] at hq
    cases hq
  obtain ⟨h1, h2⟩ := nested_fold_toSet M a next.get_seq Ubig.new h0
  refine ⟨?_, h2⟩
  show (next.get_seq.foldl _ Ubig.new).toSet = _
  rw [h1, Ubig.toSet_new]
  ext p
  simp only [Set.empty_union, Set.mem_setOf_eq, stepSet, epsCloseSet, moveSet]
  constructor
  · rintro ⟨s, hs, t, ht, hr⟩
    exact ⟨t, ⟨s, (Ubig.mem_get_seq next s).mp hs, (M.mem_get_transition_map s a t).mp ht⟩, hr⟩
  · rintro ⟨t, ⟨s, hs, ht⟩, hr⟩
    exact ⟨s, (Ubig.mem_get_seq next s).mpr hs, t, (M.mem_get_transition_map s a t).mpr ht, hr⟩

theorem le_foldr_max : ∀ (l : List Nat) (x : Nat), x ∈ l → x ≤ l.foldr max 0 := by
  intro l
  induction l with
  | nil => intro x hx; cases hx
  | cons a l ih =>
    intro x hx
    rcases List.mem_cons.mp hx with rfl | hx2
    · exact le_max_left _ _
    · exact le_trans (ih x hx2) (le_max_right _ _)

theorem rsMaxBit_table (M : Automaton) : ∀ t ∈ M.table, t.2.2 ≤ rsMaxBit M := by
  intro t ht
  apply le_foldr_max
  exact List.mem_append_right _ (List.mem_map.mpr ⟨t, ht, rfl⟩)

theorem rsMaxBit_start (M : Automaton) : ∀ s ∈ M.start, s ≤ rsMaxBit M := by
  intro s hs
  exact le_foldr_max _ s (List.mem_append_left _ hs)

theorem add_stateGo_succ_cons (tm : Nat × Nat → List Nat) (fuel : Nat) (num : Ubig)
    (b : Nat) (rest : List Nat) :
    add_stateGo tm (fuel + 1) num (b :: rest)
      = if num.bit_at b then add_stateGo tm fuel num rest
        else add_stateGo tm fuel (num.set_to b true) (rest ++ tm (b, 0)) := rfl

/-- `add_state` keeps byte values below 256 and the byte-vector length
below the `rsLmax` bound when all queued bits are below `rsMaxBit`. -/
theorem add_stateGo_bound (M : Automaton) :
    ∀ (fuel : Nat) (num : Ubig) (queue : List Nat), num.bytesLT →
      num.num.length ≤ rsLmax M → (∀ b ∈ queue, b ≤ rsMaxBit M) →
      (add_stateGo (M.get_transition_map) fuel num queue).bytesLT ∧
      (add_stateGo (M.get_transition_map) fuel num queue).num.length ≤ rsLmax M := by
  intro fuel
  induction fuel with
  | zero => intro num queue h1 h2 _; exact ⟨h1, h2⟩
  | succ fuel ih =>
    intro num queue h1 h2 h3
    match queue with
    | [] => exact ⟨h1, h2⟩
    | b :: rest =>
      rw [add_stateGo_succ_cons]
      by_cases hmark : num.bit_at b = true
      · rw [if_pos hmark]
        exact ih num rest h1 h2 (fun x hx => h3 x (List.mem_cons_of_mem _ hx))
      · rw [if_neg hmark]
        have hb : b ≤ rsMaxBit M := h3 b (List.mem_cons_self _ _)
        refine ih _ _ (Ubig.bytesLT_set_to_true num b h1) ?_ ?_
        · have := Ubig.set_to_true_length num b
          unfold rsLmax at *
          omega
        · intro x hx
          rcases List.mem_append.mp hx with hx1 | hx1
          · exact h3 x (List.mem_cons_of_mem _ hx1)
          · have := (M.mem_get_transition_map b 0 x).mp hx1
            exact rsMaxBit_table M _ this

theorem add_state_bound (M : Automaton) (num : Ubig) (bit : Nat) (h1 : num.bytesLT)
    (h2 : num.num.length ≤ rsLmax M) (hb : bit ≤ rsMaxBit M) :
    (M.add_state (M.get_transition_map) num bit).bytesLT ∧
    (M.add_state (M.get_transition_map) num bit).num.length ≤ rsLmax M := by
  apply add_stateGo_bound M (M.epsFuel) num [bit] h1 h2
  intro b hbm
  rcases List.mem_cons.mp hbm with rfl | h
  · exact hb
  · cases h

/-- Base-257 encoding of a byte vector; injective on genuine byte vectors
and bounded by `257 ^ (length + 1)`. -/
def encodeBytes : List Nat → Nat
  | [] => 0
  | b :: t => b + 1 + 257 * encodeBytes t

theorem encodeBytes_lt : ∀ l : List Nat, (∀ b ∈ l, b < 256) →
    encodeBytes l < 257 ^ (l.length + 1) := by
  intro l
  induction l with
  | nil => intro _; simp [encodeBytes]
  | cons b t ih =>
    intro h
    have hb : b < 256 := h b (List.mem_cons_self _ _)
    have ht := ih (fun x hx => h x (List.mem_cons_of_mem _ hx))
    show b + 1 + 257 * encodeBytes t < 257 ^ (t.length + 1 + 1)
    rw [pow_succ]
    have h257 : 0 < 257 ^ (t.length + 1) := Nat.pos_pow_of_pos _ (by omega)
    omega

theorem encodeBytes_inj : ∀ l1 l2 : List Nat, (∀ b ∈ l1, b < 256) → (∀ b ∈ l2, b < 256) →
    encodeBytes l1 = encodeBytes l2 → l1 = l2 := by
  intro l1
  induction l1 with
  | nil =>
    intro l2 _ h2 he
    match l2 with
    | [] => rfl
    | b :: t =>
      exfalso
      have : encodeBytes [] = 0 := rfl
      have h2' : encodeBytes (b :: t) = b + 1 + 257 * encodeBytes t := rfl
      omega
  | cons b t ih =>
    intro l2 h1 h2 he
    match l2 with
    | [] =>
      exfalso
      have h1' : encodeBytes (b :: t) = b + 1 + 257 * encodeBytes t := rfl
      have : encodeBytes ([] : List Nat) = 0 := rfl
      omega
    | c :: u =>
      have hb : b < 256 := h1 b (List.mem_cons_self _ _)
      have hc : c < 256 := h2 c (List.mem_cons_self _ _)
      have he' : b + 1 + 257 * encodeBytes t = c + 1 + 257 * encodeBytes u := he
      have hbc : b = c ∧ encodeBytes t = encodeBytes u := by omega
      rw [hbc.1, ih u (fun x hx => h1 x (List.mem_cons_of_mem _ hx))
        (fun x hx => h2 x (List.mem_cons_of_mem _ hx)) hbc.2]

/-- A list of distinct byte vectors with bounded length and genuine bytes
has at most `257 ^ (L + 1)` elements. -/
theorem nodup_bytes_length_le (L : Nat) :
    ∀ nums : List (List Nat), nums.Nodup → (∀ l ∈ nums, ∀ b ∈ l, b < 256) →
      (∀ l ∈ nums, l.length ≤ L) → nums.length ≤ 257 ^ (L + 1) := by
  intro nums hnd hbytes hlen
  have hmap : (nums.map encodeBytes).Nodup := by
    apply List.Nodup.map_on ?_ hnd
    intro x hx y hy he
    exact encodeBytes_inj x y (hbytes x hx) (hbytes y hy) he
  have hbound : ∀ e ∈ nums.map encodeBytes, e < 257 ^ (L + 1) := by
    intro e he
    obtain ⟨l, hl, rfl⟩ := List.mem_map.mp he
    calc encodeBytes l < 257 ^ (l.length + 1) := encodeBytes_lt l (hbytes l hl)
      _ ≤ 257 ^ (L + 1) := Nat.pow_le_pow_right (by omega) (by
          have := hlen l hl
          omega)
  have hsub : (nums.map encodeBytes).toFinset ⊆ Finset.range (257 ^ (L + 1)) := by
    intro e he
    rw [Finset.mem_range]
    exact hbound e (List.mem_toFinset.mp he)
  have hcard := Finset.card_le_card hsub
  rw [Finset.card_range, List.toFinset_card_of_nodup hmap] at hcard
  rw [← List.length_map nums encodeBytes]
  exact hcard

end Automaton

theorem Ubig.eq_of_num_eq {u v : Ubig} (h : u.num = v.num) : u = v := by
  cases u
  cases v
  cases h
  rfl

namespace Automaton

/-- The key of the subset with id `i` in the current mapper. -/
def keyOf (st : RSState) (i : Nat) : Ubig := (st.num_mapper.getD i (Ubig.new, 0)).1

theorem find?_at_key (d : Ubig × Nat) :
    ∀ (m : List (Ubig × Nat)), (m.map (fun q => q.1.num)).Nodup →
      ∀ k, k < m.length →
        m.find? (fun q => q.1.num == (m.getD k d).1.num) = some (m.getD k d) := by
  intro m
  induction m with
  | nil => intro _ k hk; exact absurd hk (by simp)
  | cons e rest ih =>
    intro hnd k hk
    match k with
    | 0 =>
      rw [List.getD_cons_zero]
      exact List.find?_cons_of_pos _ (beq_self_eq_true _)
    | k + 1 =>
      rw [List.getD_cons_succ]
      have hk' : k < rest.length := by
        simp only [List.length_cons] at hk
        omega
      have hmem : (rest.getD k d) ∈ rest := by
        rw [List.getD_eq_getElem?_getD, List.getElem?_eq_getElem hk']
        exact List.getElem_mem hk'
      have hne : ¬ (e.1.num == (rest.getD k d).1.num) = true := by
        intro hbeq
        have heq := beq_iff_eq.mp hbeq
        have hin : (rest.getD k d).1.num ∈ rest.map (fun q => q.1.num) :=
          List.mem_map.mpr ⟨_, hmem, rfl⟩
        have hnotin := (List.nodup_cons.mp hnd).1
        apply hnotin
        show e.1.num ∈ List.map (fun q => q.1.num) rest
        rw [heq]
        exact hin
      have hne' : ¬ ((fun q : Ubig × Nat => q.1.num == (rest.getD k d).1.num) e = true) := hne
      rw [List.find?_cons_of_neg rest hne']
      exact ih (List.nodup_cons.mp hnd).2 k hk'

theorem getD_snd_eq (st : RSState)
    (hids : st.num_mapper.map Prod.snd = List.range st.num_mapper.length)
    (k : Nat) (hk : k < st.num_mapper.length) :
    (st.num_mapper.getD k (Ubig.new, 0)).2 = k := by
  have h1 : (st.num_mapper.map Prod.snd)[k]?
      = some (st.num_mapper.getD k (Ubig.new, 0)).2 := by
    rw [List.getElem?_map, List.getElem?_eq_getElem hk]
    rw [List.getD_eq_getElem?_getD, List.getElem?_eq_getElem hk]
    rfl
  rw [hids, List.getElem?_range (by simpa using hk)] at h1
  exact (Option.some.injEq _ _ ▸ h1).symm

theorem mapperGet_keyOf (st : RSState)
    (hnd : (st.num_mapper.map (fun q => q.1.num)).Nodup)
    (hids : st.num_mapper.map Prod.snd = List.range st.num_mapper.length)
    (k : Nat) (hk : k < st.num_mapper.length) :
    mapperGet st.num_mapper (keyOf st k) = some k := by
  unfold mapperGet keyOf
  rw [find?_at_key (Ubig.new, 0) st.num_mapper hnd k hk]
  rw [Option.map_some']
  rw [getD_snd_eq st hids k hk]

theorem mapperGet_some {m : List (Ubig × Nat)} {u : Ubig} {j : Nat}
    (h : mapperGet m u = some j) : ∃ q ∈ m, q.1 = u ∧ q.2 = j := by
  unfold mapperGet at h
  rcases hf : m.find? (fun q => q.1.num == u.num) with _ | q
  · rw [hf] at h
    cases h
  · rw [hf, Option.map_some'] at h
    have hq := List.find?_some hf
    have hqm := List.mem_of_find?_eq_some hf
    cases h
    exact ⟨q, hqm, Ubig.eq_of_num_eq (beq_iff_eq.mp hq), rfl⟩

theorem entry_at_id (st : RSState)
    (hids : st.num_mapper.map Prod.snd = List.range st.num_mapper.length) :
    ∀ q ∈ st.num_mapper, q.2 < st.num_mapper.length ∧
      st.num_mapper.getD q.2 (Ubig.new, 0) = q := by
  intro q hq
  obtain ⟨pos, hpos, hget⟩ := List.getElem_of_mem hq
  have h1 : (st.num_mapper.map Prod.snd)[pos]? = some q.2 := by
    rw [List.getElem?_map, List.getElem?_eq_getElem hpos, hget]
    rfl
  rw [hids, List.getElem?_range (by simpa using hpos)] at h1
  have hq2 : q.2 = pos := ((Option.some.injEq _ _).mp h1).symm
  subst hq2
  refine ⟨hpos, ?_⟩
  rw [List.getD_eq_getElem?_getD, List.getElem?_eq_getElem hpos]
  exact congrArg (fun o => Option.getD o (Ubig.new, 0)) (congrArg some hget)

theorem foldl_add_state_bound (M : Automaton) :
    ∀ (T : List Nat) (num : Ubig), num.bytesLT → num.num.length ≤ rsLmax M →
      (∀ t ∈ T, t ≤ rsMaxBit M) →
      (T.foldl (fun ns t => M.add_state (M.get_transition_map) ns t) num).bytesLT ∧
      (T.foldl (fun ns t => M.add_state (M.get_transition_map) ns t) num).num.length
        ≤ rsLmax M := by
  intro T
  induction T with
  | nil => intro num h1 h2 _; exact ⟨h1, h2⟩
  | cons t T ih =>
    intro num h1 h2 h3
    rw [List.foldl_cons]
    obtain ⟨g1, g2⟩ := add_state_bound M num t h1 h2 (h3 t (List.mem_cons_self _ _))
    exact ih _ g1 g2 (fun x hx => h3 x (List.mem_cons_of_mem _ hx))

theorem rsNewS_bound (M : Automaton) (next : Ubig) (a : Nat) :
    (rsNewS M (M.get_transition_map) next a).bytesLT ∧
    (rsNewS M (M.get_transition_map) next a).num.length ≤ rsLmax M := by
  unfold rsNewS
  have main : ∀ (L : List Nat) (num : Ubig), num.bytesLT → num.num.length ≤ rsLmax M →
      ((L.foldl (fun ns s => (M.get_transition_map (s, a)).foldl
          (fun ns t => M.add_state (M.get_transition_map) ns t) ns) num).bytesLT ∧
        (L.foldl (fun ns s => (M.get_transition_map (s, a)).foldl
          (fun ns t => M.add_state (M.get_transition_map) ns t) ns) num).num.length
          ≤ rsLmax M) := by
    intro L
    induction L with
    | nil => intro num h1 h2; exact ⟨h1, h2⟩
    | cons s L ih =>
      intro num h1 h2
      rw [List.foldl_cons]
      obtain ⟨g1, g2⟩ := foldl_add_state_bound M (M.get_transition_map (s, a)) num h1 h2
        (fun t ht => rsMaxBit_table M _ ((M.mem_get_transition_map s a t).mp ht))
      exact ih _ g1 g2
  exact main next.get_seq Ubig.new (fun b hb => by cases hb) (by
    show (0 : Nat) ≤ rsLmax M
    omega)

/-- Mid-row invariant of the `rabin_scott` loop: the subset with id `k`
(whose key is `next`) has been popped, the transitions for its symbols
`[1, c)` have been emitted, and the global bookkeeping invariants hold. -/
structure RSMid (M : Automaton) (k : Nat) (next : Ubig) (c : Nat) (st : RSState) : Prop where
  bm : st.bookmark = st.num_mapper.length
  ids : st.num_mapper.map Prod.snd = List.range st.num_mapper.length
  nodup : (st.num_mapper.map (fun q => q.1.num)).Nodup
  bytes : ∀ q ∈ st.num_mapper, q.1.bytesLT
  klen : ∀ q ∈ st.num_mapper, q.1.num.length ≤ rsLmax M
  hk : k < st.num_mapper.length
  hnext : keyOf st k = next
  fr : st.frontier = (st.num_mapper.drop (k + 1)).map Prod.fst
  trShape : st.transitions.map (fun t => (t.1, t.2.1))
      = ((List.range k).flatMap (fun i => (List.range' 1 M.alphabet).map (fun a => (i, a))))
        ++ (List.range' 1 (c - 1)).map (fun a => (k, a))
  trSem : ∀ t ∈ st.transitions, t.1 < st.num_mapper.length ∧ t.2.2 < st.num_mapper.length ∧
      (keyOf st t.2.2).toSet = stepSet M (keyOf st t.1).toSet t.2.1
  accSem : ∀ i, i < st.num_mapper.length →
      (i ∈ st.accept_states ↔ ∃ f ∈ M.end_, (keyOf st i).bit_at f = true)
  accInc : st.accept_states.Chain' (· < ·)
  accBound : ∀ i ∈ st.accept_states, i < st.num_mapper.length
  startSem : (keyOf st 0).toSet = epsCloseSet M {s | s ∈ M.start}

theorem chain'_lt_append_singleton {l : List Nat} {n : Nat} (h : l.Chain' (· < ·))
    (hall : ∀ x ∈ l, x < n) : (l ++ [n]).Chain' (· < ·) := by
  induction l with
  | nil => simp
  | cons a l ih =>
    rw [List.cons_append]
    rw [List.chain'_cons'] at h ⊢
    refine ⟨?_, ih h.2 (fun x hx => hall x (List.mem_cons_of_mem _ hx))⟩
    intro y hy
    match l with
    | [] =>
      simp only [List.nil_append, List.head?_cons, Option.mem_def, Option.some.injEq] at hy
      subst hy
      exact hall a (List.mem_cons_self _ _)
    | b :: l' =>
      simp only [List.cons_append, List.head?_cons, Option.mem_def, Option.some.injEq] at hy
      subst hy
      exact h.1 b (by simp)

theorem keyOf_append (st : RSState) (e : Ubig × Nat) (i : Nat)
    (hi : i < st.num_mapper.length) :
    keyOf { st with num_mapper := st.num_mapper ++ [e] } i = keyOf st i := by
  unfold keyOf
  simp only
  rw [List.getD_eq_getElem?_getD, List.getD_eq_getElem?_getD, List.getElem?_append_left hi]

theorem keyOf_last (st : RSState) (e : Ubig × Nat) :
    keyOf { st with num_mapper := st.num_mapper ++ [e] } st.num_mapper.length = e.1 := by
  unfold keyOf
  simp only
  rw [List.getD_eq_getElem?_getD, List.getElem?_append_right (le_refl _)]
  simp

/-- Effect of the insertion block: the invariant survives, the mapper
grows by at most one entry, and afterwards `new_s` is present with an id
below the (new) mapper length whose key is `new_s` itself. -/
theorem rsInsert_mid (M : Automaton) {k : Nat} {next : Ubig} {c : Nat} {st : RSState}
    (hmid : RSMid M k next c st) :
    RSMid M k next c (rsInsert M st (rsNewS M (M.get_transition_map) next c)) ∧
    st.num_mapper.length ≤ (rsInsert M st (rsNewS M (M.get_transition_map) next c)).num_mapper.length ∧
    ∃ j, mapperGet (rsInsert M st (rsNewS M (M.get_transition_map) next c)).num_mapper
        (rsNewS M (M.get_transition_map) next c) = some j ∧
      j < (rsInsert M st (rsNewS M (M.get_transition_map) next c)).num_mapper.length ∧
      keyOf (rsInsert M st (rsNewS M (M.get_transition_map) next c)) j
        = rsNewS M (M.get_transition_map) next c := by
  set new_s := rsNewS M (M.get_transition_map) next c with hns
  unfold rsInsert
  by_cases hpres : (mapperGet st.num_mapper new_s).isSome = true
  · rw [if_pos hpres]
    obtain ⟨j, hj⟩ := Option.isSome_iff_exists.mp hpres
    obtain ⟨q, hqm, hq1, hq2⟩ := mapperGet_some hj
    obtain ⟨hqlt, hqat⟩ := entry_at_id st hmid.ids q hqm
    refine ⟨hmid, le_refl _, j, hj, ?_, ?_⟩
    · rw [← hq2]
      exact hqlt
    · show keyOf st j = new_s
      rw [← hq2]
      unfold keyOf
      rw [hqat, hq1]
  · rw [if_neg hpres]
    have hnone : mapperGet st.num_mapper new_s = none :=
      Option.not_isSome_iff_eq_none.mp hpres
    have hnotin : ∀ q ∈ st.num_mapper, ¬ (q.1.num == new_s.num) = true := by
      have := List.find?_eq_none.mp (by
        unfold mapperGet at hnone
        rcases hf : st.num_mapper.find? (fun q => q.1.num == new_s.num) with _ | q
        · rfl
        · rw [hf] at hnone
          cases hnone)
      exact this
    have hnumnotin : new_s.num ∉ st.num_mapper.map (fun q => q.1.num) := by
      intro hin
      obtain ⟨q, hqm, hqe⟩ := List.mem_map.mp hin
      exact hnotin q hqm (beq_iff_eq.mpr hqe)
    set N := st.num_mapper.length with hN
    set st1 : RSState :=
      { st with
        num_mapper := st.num_mapper ++ [(new_s, st.bookmark)],
        bookmark := st.bookmark + 1,
        accept_states :=
          if M.end_.any (fun s => new_s.bit_at s) then st.accept_states ++ [st.bookmark]
          else st.accept_states,
        frontier := st.frontier ++ [new_s] } with hst1
    have hlen1 : st1.num_mapper.length = N + 1 := by
      rw [hst1]
      simp
    have hkey_old : ∀ i, i < N → keyOf st1 i = keyOf st i := fun i hi =>
      keyOf_append st (new_s, st.bookmark) i hi
    have hkey_new : keyOf st1 N = new_s :=
      keyOf_last st (new_s, st.bookmark)
    have hNpos : 0 < N := by
      have := hmid.hk
      omega
    have hbound := rsNewS_bound M next c
    have hmid1 : RSMid M k next c st1 := by
      refine ⟨?_, ?_, ?_, ?_, ?_, ?_, ?_, ?_, ?_, ?_, ?_, ?_, ?_, ?_⟩
      · show st.bookmark + 1 = st1.num_mapper.length
        rw [hlen1]
        have := hmid.bm
        omega
      · show (st.num_mapper ++ [(new_s, st.bookmark)]).map Prod.snd = List.range st1.num_mapper.length
        rw [List.map_append, hmid.ids, hlen1, List.range_succ, hmid.bm]
        rfl
      · show ((st.num_mapper ++ [(new_s, st.bookmark)]).map (fun q => q.1.num)).Nodup
        rw [List.map_append]
        apply List.Nodup.append hmid.nodup (by simp)
        intro x hx hx2
        simp only [List.map_cons, List.map_nil, List.mem_singleton] at hx2
        subst hx2
        exact hnumnotin hx
      · intro q hq
        rcases List.mem_append.mp hq with h1 | h1
        · exact hmid.bytes q h1
        · rcases List.mem_singleton.mp h1 with rfl
          exact hbound.1
      · intro q hq
        rcases List.mem_append.mp hq with h1 | h1
        · exact hmid.klen q h1
        · rcases List.mem_singleton.mp h1 with rfl
          exact hbound.2
      · show k < st1.num_mapper.length
        rw [hlen1]
        have := hmid.hk
        omega
      · show keyOf st1 k = next
        rw [hkey_old k hmid.hk]
        exact hmid.hnext
      · show st.frontier ++ [new_s]
          = ((st.num_mapper ++ [(new_s, st.bookmark)]).drop (k + 1)).map Prod.fst
        rw [List.drop_append_of_le_length (by have := hmid.hk; omega), List.map_append,
          ← hmid.fr]
        rfl
      · exact hmid.trShape
      · intro t ht
        obtain ⟨g1, g2, g3⟩ := hmid.trSem t ht
        refine ⟨?_, ?_, ?_⟩
        · rw [hlen1]; omega
        · rw [hlen1]; omega
        · rw [hkey_old t.2.2 g2, hkey_old t.1 g1]
          exact g3
      · intro i hi
        rw [hlen1] at hi
        by_cases hiN : i < N
        · rw [hkey_old i hiN]
          have hold := hmid.accSem i hiN
          by_cases hpush : M.end_.any (fun s => new_s.bit_at s) = true
          · show i ∈ (if M.end_.any (fun s => new_s.bit_at s) then
              st.accept_states ++ [st.bookmark] else st.accept_states) ↔ _
            rw [if_pos hpush, ← hold]
            constructor
            · intro hmem
              rcases List.mem_append.mp hmem with h1 | h1
              · exact h1
              · rcases List.mem_singleton.mp h1 with rfl
                exfalso
                have := hmid.bm
                omega
            · intro hmem
              exact List.mem_append_left _ hmem
          · show i ∈ (if M.end_.any (fun s => new_s.bit_at s) then
              st.accept_states ++ [st.bookmark] else st.accept_states) ↔ _
            rw [if_neg hpush]
            exact hold
        · have hiN2 : i = N := by omega
          subst hiN2
          rw [hkey_new]
          by_cases hpush : M.end_.any (fun s => new_s.bit_at s) = true
          · show N ∈ (if M.end_.any (fun s => new_s.bit_at s) then
              st.accept_states ++ [st.bookmark] else st.accept_states) ↔ _
            rw [if_pos hpush]
            constructor
            · intro _
              obtain ⟨f, hf, hbit⟩ := List.any_eq_true.mp hpush
              exact ⟨f, hf, hbit⟩
            · intro _
              apply List.mem_append_right
              rw [hmid.bm]
              exact List.mem_singleton_self _
          · show N ∈ (if M.end_.any (fun s => new_s.bit_at s) then
              st.accept_states ++ [st.bookmark] else st.accept_states) ↔ _
            rw [if_neg hpush]
            constructor
            · intro hmem
              exfalso
              have := hmid.accBound N hmem
              omega
            · intro hex
              exfalso
              apply hpush
              obtain ⟨f, hf, hbit⟩ := hex
              exact List.any_eq_true.mpr ⟨f, hf, hbit⟩
      · show (if M.end_.any (fun s => new_s.bit_at s) then
          st.accept_states ++ [st.bookmark] else st.accept_states).Chain' (· < ·)
        by_cases hpush : M.end_.any (fun s => new_s.bit_at s) = true
        · rw [if_pos hpush]
          apply chain'_lt_append_singleton hmid.accInc
          intro x hx
          have := hmid.accBound x hx
          rw [hmid.bm]
          omega
        · rw [if_neg hpush]
          exact hmid.accInc
      · intro i hi
        show i < st1.num_mapper.length
        rw [hlen1]
        by_cases hpush : M.end_.any (fun s => new_s.bit_at s) = true
        · rw [show st1.accept_states = (if M.end_.any (fun s => new_s.bit_at s) then
            st.accept_states ++ [st.bookmark] else st.accept_states) from rfl,
            if_pos hpush] at hi
          rcases List.mem_append.mp hi with h1 | h1
          · have := hmid.accBound i h1
            omega
          · rcases List.mem_singleton.mp h1 with rfl
            rw [hmid.bm]
            omega
        · rw [show st1.accept_states = (if M.end_.any (fun s => new_s.bit_at s) then
            st.accept_states ++ [st.bookmark] else st.accept_states) from rfl,
            if_neg hpush] at hi
          have := hmid.accBound i hi
          omega
      · show (keyOf st1 0).toSet = _
        rw [hkey_old 0 hNpos]
        exact hmid.startSem
    refine ⟨hmid1, ?_, N, ?_, ?_, ?_⟩
    · rw [hlen1]
      omega
    · show mapperGet st1.num_mapper new_s = some N
      have : keyOf st1 N = new_s := hkey_new
      rw [← this]
      have := mapperGet_keyOf st1 hmid1.nodup hmid1.ids N (by rw [hlen1]; omega)
      exact this
    · rw [hlen1]
      omega
    · exact hkey_new

/-- One symbol of the row for the popped subset: the step succeeds (no
`panic!`), emits exactly the `(k, c, id-of-new_s)` transition, and the
invariant advances from column `c` to `c + 1`. -/
theorem rsSymStep_mid (M : Automaton) {k : Nat} {next : Ubig} {c : Nat} {st : RSState}
    (hmid : RSMid M k next c st) (hc1 : 1 ≤ c) (hc2 : c ≤ M.alphabet) :
    ∃ st', rsSymStep M (M.get_transition_map) next st c = some st' ∧
      RSMid M k next (c + 1) st' ∧ st.num_mapper.length ≤ st'.num_mapper.length := by
  obtain ⟨hmid1, hgrow, j, hjget, hjlt, hjkey⟩ := rsInsert_mid M hmid
  unfold rsSymStep
  set st1 := rsInsert M st (rsNewS M (M.get_transition_map) next c) with hst1
  have hkget : mapperGet st1.num_mapper next = some k := by
    rw [← hmid1.hnext]
    exact mapperGet_keyOf st1 hmid1.nodup hmid1.ids k hmid1.hk
  rw [hjget, hkget]
  refine ⟨_, rfl, ?_, hgrow⟩
  refine ⟨hmid1.bm, hmid1.ids, hmid1.nodup, hmid1.bytes, hmid1.klen, hmid1.hk, hmid1.hnext,
    hmid1.fr, ?_, ?_, hmid1.accSem, hmid1.accInc, hmid1.accBound, hmid1.startSem⟩
  · show (st1.transitions ++ [(k, c, j)]).map (fun t => (t.1, t.2.1)) = _
    rw [List.map_append, hmid1.trShape, List.append_assoc]
    congr 1
    have hsplit : c + 1 - 1 = (c - 1) + 1 := by omega
    rw [hsplit, List.range'_1_concat, List.map_append]
    congr 1
    show [(k, c)] = [(k, 1 + (c - 1))]
    have hone : 1 + (c - 1) = c := by omega
    rw [hone]
  · intro t ht
    rcases List.mem_append.mp ht with h1 | h1
    · exact hmid1.trSem t h1
    · rcases List.mem_singleton.mp h1 with rfl
      refine ⟨hmid1.hk, hjlt, ?_⟩
      show (keyOf st1 j).toSet = stepSet M (keyOf st1 k).toSet c
      rw [hjkey, hmid1.hnext]
      exact (rsNewS_toSet M next c).1

/-- Folding the per-symbol step over the remaining symbols of the row. -/
theorem rsSymFold (M : Automaton) {k : Nat} {next : Ubig} :
    ∀ (n c : Nat) (st : RSState), RSMid M k next c st → 1 ≤ c → c + n = M.alphabet + 1 →
      ∃ st', (List.range' c n).foldlM (rsSymStep M (M.get_transition_map) next) st = some st' ∧
        RSMid M k next (M.alphabet + 1) st' ∧
        st.num_mapper.length ≤ st'.num_mapper.length := by
  intro n
  induction n with
  | zero =>
    intro c st hmid hc1 hcn
    have hc : c = M.alphabet + 1 := by omega
    subst hc
    exact ⟨st, rfl, hmid, le_refl _⟩
  | succ n ih =>
    intro c st hmid hc1 hcn
    rw [List.range'_succ]
    obtain ⟨st1, hstep, hmid1, hg1⟩ := rsSymStep_mid M hmid hc1 (by omega)
    obtain ⟨st', hfold, hmid', hg2⟩ := ih (c + 1) st1 hmid1 (by omega) (by omega)
    refine ⟨st', ?_, hmid', le_trans hg1 hg2⟩
    rw [List.foldlM_cons, hstep]
    exact hfold

/-- Top-of-loop invariant of the `rabin_scott` frontier loop. -/
structure RSInv (M : Automaton) (st : RSState) : Prop where
  bm : st.bookmark = st.num_mapper.length
  ids : st.num_mapper.map Prod.snd = List.range st.num_mapper.length
  nodup : (st.num_mapper.map (fun q => q.1.num)).Nodup
  bytes : ∀ q ∈ st.num_mapper, q.1.bytesLT
  klen : ∀ q ∈ st.num_mapper, q.1.num.length ≤ rsLmax M
  flen : st.frontier.length ≤ st.num_mapper.length
  fr : st.frontier
      = (st.num_mapper.drop (st.num_mapper.length - st.frontier.length)).map Prod.fst
  trShape : st.transitions.map (fun t => (t.1, t.2.1))
      = (List.range (st.num_mapper.length - st.frontier.length)).flatMap
          (fun i => (List.range' 1 M.alphabet).map (fun a => (i, a)))
  trSem : ∀ t ∈ st.transitions, t.1 < st.num_mapper.length ∧ t.2.2 < st.num_mapper.length ∧
      (keyOf st t.2.2).toSet = stepSet M (keyOf st t.1).toSet t.2.1
  accSem : ∀ i, i < st.num_mapper.length →
      (i ∈ st.accept_states ↔ ∃ f ∈ M.end_, (keyOf st i).bit_at f = true)
  accInc : st.accept_states.Chain' (· < ·)
  accBound : ∀ i ∈ st.accept_states, i < st.num_mapper.length
  startSem : (keyOf st 0).toSet = epsCloseSet M {s | s ∈ M.start}

/-- The number of distinct subset keys — and hence mapper entries — is
bounded by the number of bounded-length byte vectors. -/
def rsKB (M : Automaton) : Nat := 257 ^ (rsLmax M + 1)

theorem RSInv_mapper_le (M : Automaton) (st : RSState) (hinv : RSInv M st) :
    st.num_mapper.length ≤ rsKB M := by
  have h := nodup_bytes_length_le (rsLmax M) (st.num_mapper.map (fun q => q.1.num))
    hinv.nodup
    (fun l hl => by
      obtain ⟨q, hq, rfl⟩ := List.mem_map.mp hl
      exact hinv.bytes q hq)
    (fun l hl => by
      obtain ⟨q, hq, rfl⟩ := List.mem_map.mp hl
      exact hinv.klen q hq)
  rw [List.length_map] at h
  exact h

theorem rsLoop_succ (M : Automaton) (tm : Nat × Nat → List Nat) (fuel : Nat) (st : RSState) :
    rsLoop M tm (fuel + 1) st
      = match st.frontier with
        | [] => some st
        | next :: rest =>
          ((List.range' 1 M.alphabet).foldlM (rsSymStep M tm next)
            { st with frontier := rest }).bind (rsLoop M tm fuel) := rfl

theorem rsLoop_some (M : Automaton) :
    ∀ (fuel : Nat) (st : RSState), RSInv M st →
      st.frontier.length + rsKB M ≤ fuel + st.num_mapper.length →
      ∃ st', rsLoop M (M.get_transition_map) fuel st = some st' ∧ RSInv M st' ∧
        st'.frontier = [] := by
  intro fuel
  induction fuel with
  | zero =>
    intro st hinv hf
    have hle := RSInv_mapper_le M st hinv
    rcases hfr : st.frontier with _ | ⟨next, rest⟩
    · refine ⟨st, ?_, hinv, hfr⟩
      show (if st.frontier.isEmpty then some st else none) = some st
      rw [hfr]
      rfl
    · exfalso
      rw [hfr] at hf
      simp only [List.length_cons] at hf
      omega
  | succ fuel ih =>
    intro st hinv hf
    rcases hfr : st.frontier with _ | ⟨next, rest⟩
    · have hgoal : rsLoop M (M.get_transition_map) (fuel + 1) st = some st := by
        rw [rsLoop_succ, hfr]
      exact ⟨st, hgoal, hinv, hfr⟩
    · have hgoal : rsLoop M (M.get_transition_map) (fuel + 1) st
          = ((List.range' 1 M.alphabet).foldlM (rsSymStep M (M.get_transition_map) next)
            { st with frontier := rest }).bind (rsLoop M (M.get_transition_map) fuel) := by
        rw [rsLoop_succ, hfr]
      rw [hfr] at hf
      simp only [List.length_cons] at hf
      set N := st.num_mapper.length with hNdef
      have hflen : rest.length + 1 ≤ N := by
        have := hinv.flen
        rw [hfr] at this
        simpa using this
      set k := N - (rest.length + 1) with hkdef
      have hkN : k < N := by omega
      have hdropk : st.num_mapper.drop k = st.num_mapper[k] :: st.num_mapper.drop (k + 1) :=
        List.drop_eq_getElem_cons hkN
      have hfr2 : next :: rest = (st.num_mapper.drop k).map Prod.fst := by
        have := hinv.fr
        rw [hfr] at this
        simp only [List.length_cons] at this
        rw [← hkdef] at this
        exact this
      rw [hdropk, List.map_cons] at hfr2
      have hnext : next = (st.num_mapper[k]).1 := (List.cons.injEq _ _ _ _).mp hfr2 |>.1
      have hrest : rest = (st.num_mapper.drop (k + 1)).map Prod.fst :=
        ((List.cons.injEq _ _ _ _).mp hfr2).2
      have hkeyk : keyOf st k = next := by
        unfold keyOf
        rw [List.getD_eq_getElem?_getD, List.getElem?_eq_getElem hkN, hnext]
        rfl
      set st0 : RSState := { st with frontier := rest } with hst0
      have hmid0 : RSMid M k next 1 st0 := by
        refine ⟨hinv.bm, hinv.ids, hinv.nodup, hinv.bytes, hinv.klen, hkN, hkeyk, hrest, ?_,
          hinv.trSem, hinv.accSem, hinv.accInc, hinv.accBound, hinv.startSem⟩
        show st.transitions.map (fun t => (t.1, t.2.1)) = _
        have := hinv.trShape
        rw [hfr] at this
        simp only [List.length_cons] at this
        rw [← hkdef] at this
        rw [this]
        simp
      obtain ⟨st1, hfold, hmid1, hgrow⟩ := rsSymFold M M.alphabet 1 st0 hmid0 (le_refl _)
        (by omega)
      have hN1 : N ≤ st1.num_mapper.length := hgrow
      have hflen1 : st1.frontier.length = st1.num_mapper.length - (k + 1) := by
        rw [hmid1.fr, List.length_map, List.length_drop]
      have hk1 : k + 1 ≤ st1.num_mapper.length := by
        have := hmid1.hk
        omega
      have hinv1 : RSInv M st1 := by
        refine ⟨hmid1.bm, hmid1.ids, hmid1.nodup, hmid1.bytes, hmid1.klen, ?_, ?_, ?_,
          hmid1.trSem, hmid1.accSem, hmid1.accInc, hmid1.accBound, hmid1.startSem⟩
        · rw [hflen1]
          omega
        · rw [hflen1, show st1.num_mapper.length - (st1.num_mapper.length - (k + 1)) = k + 1
            from by omega]
          exact hmid1.fr
        · rw [hflen1, show st1.num_mapper.length - (st1.num_mapper.length - (k + 1)) = k + 1
            from by omega]
          have := hmid1.trShape
          rw [this]
          rw [List.range_succ, List.flatMap_append]
          congr 1
          simp
      obtain ⟨st', hrec, hinv', hfr'⟩ := ih st1 hinv1 (by
        have hle1 := RSInv_mapper_le M st1 hinv1
        have hst0len : st0.num_mapper.length = N := rfl
        rw [hflen1]
        omega)
      refine ⟨st', ?_, hinv', hfr'⟩
      rw [hgoal]
      show (List.foldlM (rsSymStep M M.get_transition_map next) st0
        (List.range' 1 M.alphabet)).bind (rsLoop M M.get_transition_map fuel) = some st'
      rw [hfold]
      exact hrec

/-- The initial `rabin_scott` state satisfies the loop invariant. -/
theorem rsInit_inv (M : Automaton) : RSInv M (rsInit M (M.get_transition_map)) := by
  have hbound := foldl_add_state_bound M M.start Ubig.new (fun b hb => by cases hb)
    (by show (0 : Nat) ≤ rsLmax M; omega) (rsMaxBit_start M)
  have hsem := M.eps_close_toSet M.start
  refine ⟨rfl, rfl, List.nodup_singleton _, ?_, ?_, le_refl 1, ?_, ?_, ?_, ?_, ?_, ?_, ?_⟩
  · intro q hq
    rcases List.mem_singleton.mp hq with rfl
    exact hbound.1
  · intro q hq
    rcases List.mem_singleton.mp hq with rfl
    exact hbound.2
  · rfl
  · rfl
  · intro t ht
    cases ht
  · intro i hi
    have hi0 : i = 0 := by
      simp only [rsInit, List.length_cons, List.length_nil] at hi
      omega
    subst hi0
    show 0 ∈ (if M.end_.any _ then [0] else []) ↔ _
    by_cases hpush : M.end_.any
        (fun s => (M.start.foldl (fun num s => M.add_state (M.get_transition_map) num s)
          Ubig.new).bit_at s) = true
    · rw [if_pos hpush]
      constructor
      · intro _
        obtain ⟨f, hf, hbit⟩ := List.any_eq_true.mp hpush
        exact ⟨f, hf, hbit⟩
      · intro _
        exact List.mem_singleton_self _
    · rw [if_neg hpush]
      constructor
      · intro h
        cases h
      · intro hex
        exfalso
        apply hpush
        obtain ⟨f, hf, hbit⟩ := hex
        exact List.any_eq_true.mpr ⟨f, hf, hbit⟩
  · show (if M.end_.any _ then [0] else []).Chain' (· < ·)
    by_cases hpush : M.end_.any
        (fun s => (M.start.foldl (fun num s => M.add_state (M.get_transition_map) num s)
          Ubig.new).bit_at s) = true
    · rw [if_pos hpush]
      simp
    · rw [if_neg hpush]
      simp
  · intro i hi
    show i < 1
    by_cases hpush : M.end_.any
        (fun s => (M.start.foldl (fun num s => M.add_state (M.get_transition_map) num s)
          Ubig.new).bit_at s) = true
    · rw [show (rsInit M (M.get_transition_map)).accept_states
        = (if M.end_.any (fun s => (M.start.foldl
            (fun num s => M.add_state (M.get_transition_map) num s) Ubig.new).bit_at s)
          then [0] else []) from rfl, if_pos hpush] at hi
      rcases List.mem_singleton.mp hi with rfl
      omega
    · rw [show (rsInit M (M.get_transition_map)).accept_states
        = (if M.end_.any (fun s => (M.start.foldl
            (fun num s => M.add_state (M.get_transition_map) num s) Ubig.new).bit_at s)
          then [0] else []) from rfl, if_neg hpush] at hi
      cases hi
  · show (keyOf (rsInit M (M.get_transition_map)) 0).toSet = _
    have hkey : keyOf (rsInit M (M.get_transition_map)) 0
        = M.start.foldl (fun num s => M.add_state (M.get_transition_map) num s) Ubig.new := rfl
    rw [hkey]
    exact hsem.1

/-- `rabin_scott` terminates and the final loop state satisfies the full
invariant with an empty frontier. -/
theorem rabin_scott_spec (M : Automaton) :
    ∃ st', rsLoop M (M.get_transition_map) (rsFuel M) (rsInit M (M.get_transition_map))
        = some st' ∧
      RSInv M st' ∧ st'.frontier = [] ∧
      rabin_scott M = some (st'.transitions, st'.num_mapper.length, [0], st'.accept_states) := by
  obtain ⟨st', h1, h2, h3⟩ := rsLoop_some M (rsFuel M) (rsInit M (M.get_transition_map))
    (rsInit_inv M)
    (by
      show (rsInit M (M.get_transition_map)).frontier.length + rsKB M
        ≤ rsFuel M + (rsInit M (M.get_transition_map)).num_mapper.length
      have h1 : (rsInit M (M.get_transition_map)).frontier.length = 1 := rfl
      have h2 : (rsInit M (M.get_transition_map)).num_mapper.length = 1 := rfl
      have h3 : rsFuel M = rsKB M + 1 := rfl
      omega)
  refine ⟨st', h1, h2, h3, ?_⟩
  unfold rabin_scott
  rw [h1]
  rfl

theorem rabin_scott_isSome (M : Automaton) : (rabin_scott M).isSome = true := by
  obtain ⟨st', _, _, _, h4⟩ := rabin_scott_spec M
  rw [h4]
  rfl

/-- C3: folding `add_state` over the elements of `S` starting from the
empty bitset produces exactly the ε-closure of `S`: it contains `S`, is
closed under symbol-0 transitions, every member is reachable from `S` by
zero or more symbol-0 transitions, and it is contained in every superset
of `S` closed under symbol-0 transitions. -/
theorem add_state_fold_eps_closure (M : Automaton) (S : List Nat) :
    (∀ s ∈ S, (M.eps_close S).bit_at s = true) ∧
    (∀ q p, (M.eps_close S).bit_at q = true → (q, 0, p) ∈ M.table →
      (M.eps_close S).bit_at p = true) ∧
    (∀ p, (M.eps_close S).bit_at p = true → ∃ s ∈ S, epsReach M s p) ∧
    (∀ T : Set Nat, (∀ s ∈ S, s ∈ T) →
      (∀ q ∈ T, ∀ p, (q, 0, p) ∈ M.table → p ∈ T) →
      ∀ p, (M.eps_close S).bit_at p = true → p ∈ T) := by
  obtain ⟨hset, hcl⟩ := M.eps_close_toSet S
  refine ⟨?_, ?_, ?_, ?_⟩
  · intro s hs
    have h : s ∈ (M.eps_close S).toSet := by
      rw [hset]
      exact ⟨s, hs, Relation.ReflTransGen.refl⟩
    exact h
  · intro q p hq htr
    exact hcl q hq p htr
  · intro p hp
    have h : p ∈ (M.eps_close S).toSet := hp
    rw [hset] at h
    exact h
  · intro T hTS hTcl p hp
    have hreach_closed : ∀ s p', s ∈ T → epsReach M s p' → p' ∈ T := by
      intro s p' hsT hr
      induction hr with
      | refl => exact hsT
      | tail _ he ihr => exact hTcl _ ihr _ he
    have h : p ∈ (M.eps_close S).toSet := hp
    rw [hset] at h
    obtain ⟨s, hs, hr⟩ := h
    exact hreach_closed s p (hTS s hs) hr

/-- The ε-NFA of the spec's scenario 4, used as a concrete witness input. -/
def exEps : Automaton :=
  ⟨AutomatonType.NonDet, 4, 2,
    [(0, 0, 1), (0, 1, 2), (1, 1, 3), (2, 2, 3), (3, 0, 3), (3, 1, 3), (3, 2, 3)],
    [0], [3]⟩

/-- C9: for every well-formed input, the determinizer terminates — some
fuel value (in fact `rsFuel`) lets the subset-construction frontier loop
run to completion, and the inner ε-closure worklists terminate as part of
it (`add_state` is a total function of its fuel-free specification). -/
theorem rabin_scott_terminates (M : Automaton) (hwf : WellFormed M) :
    ∃ fuel, (rsLoop M (M.get_transition_map) fuel (rsInit M (M.get_transition_map))).isSome
      = true := by
  obtain ⟨st', h1, _, _, _⟩ := rabin_scott_spec M
  exact ⟨rsFuel M, by rw [h1]; rfl⟩

/-- C10: under well-formed input, neither `rabin_scott` (inside
`determinized`) nor `minimized` reaches a `panic!` branch, and both
terminate: the embedded functions return `some`. -/
theorem no_panics_under_wf (M : Automaton) (hwf : WellFormed M) :
    (rabin_scott M).isSome = true ∧ (M.minimized).isSome = true :=
  ⟨rabin_scott_isSome M, minimized_isSome M hwf⟩

end Automaton

open Automaton in
/-- Witness: the closure facts of `add_state_fold_eps_closure` applied to
the concrete ε-NFA `exEps` and `S = [0]`: state 0 is in the closure and
the ε-successor 1 of 0 is forced into it. -/
theorem add_state_fold_eps_closure_witness :
    (exEps.eps_close [0]).bit_at 1 = true :=
  (add_state_fold_eps_closure exEps [0]).2.1 0 1
    ((add_state_fold_eps_closure exEps [0]).1 0 (List.mem_singleton_self 0))
    (by decide)

open Automaton in
/-- Witness: `rabin_scott_terminates` at the concrete well-formed ε-NFA
`exEps`. -/
theorem rabin_scott_terminates_witness :
    ∃ fuel, (rsLoop exEps (exEps.get_transition_map) fuel
      (rsInit exEps (exEps.get_transition_map))).isSome = true :=
  rabin_scott_terminates exEps (by decide)

open Automaton in
/-- Witness: `no_panics_under_wf` at the concrete well-formed ε-NFA
`exEps`. -/
theorem no_panics_under_wf_witness :
    (rabin_scott exEps).isSome = true ∧ (exEps.minimized).isSome = true :=
  no_panics_under_wf exEps (by decide)

namespace Automaton

/-- C4: on an NFA input the determinizer's output has start list exactly
`[0]`; subset ids are assigned consecutively from 0 in FIFO discovery
order (the mapper's ids in insertion order are exactly `range N'`); and
the emitted transition table has exactly `N' × A` entries, one per
(state, symbol) pair with symbols ascending `1..=A`. -/
theorem rabin_scott_output_shape (M : Automaton)
    (hnd : M.automaton_type = AutomatonType.NonDet) :
    ∃ st', rsLoop M (M.get_transition_map) (rsFuel M) (rsInit M (M.get_transition_map))
        = some st' ∧
      rabin_scott M = some (st'.transitions, st'.num_mapper.length, [0], st'.accept_states) ∧
      (M.determinized).start = [0] ∧
      (M.determinized).table = st'.transitions ∧
      st'.num_mapper.map Prod.snd = List.range st'.num_mapper.length ∧
      st'.transitions.map (fun t => (t.1, t.2.1))
        = (List.range st'.num_mapper.length).flatMap
            (fun i => (List.range' 1 M.alphabet).map (fun a => (i, a))) ∧
      st'.transitions.length = st'.num_mapper.length * M.alphabet := by
  obtain ⟨st', h1, hinv, hfr, h4⟩ := rabin_scott_spec M
  have hshape := hinv.trShape
  rw [hfr] at hshape
  simp only [List.length_nil, Nat.sub_zero] at hshape
  have hdet : M.determinized
      = ⟨AutomatonType.Det, st'.num_mapper.length, M.alphabet, st'.transitions, [0],
          st'.accept_states⟩ := by
    unfold determinized
    rw [hnd, h4]
  refine ⟨st', h1, h4, ?_, ?_, hinv.ids, hshape, ?_⟩
  · rw [hdet]
  · rw [hdet]
  · have hlen := congrArg List.length hshape
    rw [List.length_map, List.length_flatMap] at hlen
    rw [hlen]
    have hmapconst :
        (List.length ∘ fun i : Nat => (List.range' 1 M.alphabet).map (fun a => (i, a)))
        = (fun _ : Nat => M.alphabet) := by
      funext i
      simp only [Function.comp_apply, List.length_map, List.length_range']
    rw [hmapconst, List.map_const', List.length_range, List.sum_replicate, smul_eq_mul]

/-- Normalization as the spec states it: transitions sorted
lexicographically, start and accept lists strictly ascending (sorted and
duplicate-free). -/
def normalized (A : Automaton) : Prop :=
  A.table.Chain' trLe ∧ A.start.Chain' (· < ·) ∧ A.end_.Chain' (· < ·)

instance (A : Automaton) : Decidable (normalized A) :=
  inferInstanceAs (Decidable (A.table.Chain' trLe ∧ A.start.Chain' (· < ·) ∧
    A.end_.Chain' (· < ·)))

/-- A deterministic automaton with an unsorted transition table. -/
def exC8 : Automaton := ⟨AutomatonType.Det, 2, 1, [(1, 1, 0), (0, 1, 1)], [0], [0]⟩

/-- C8 counterexample: on a DET input, `determinized` returns the clone
verbatim, so with an unsorted input table the returned automaton is not
normalized. -/
theorem determinized_clone_not_normalized :
    exC8.determinized = exC8 ∧ ¬ normalized (exC8.determinized) := by
  refine ⟨rfl, ?_⟩
  intro h
  have h1 : List.Chain' trLe [(1, 1, 0), (0, 1, 1)] := h.1
  have h2 := (List.chain'_cons.mp h1).1
  exact absurd h2 (by decide)

/-- Strict lexicographic order on the (source, symbol) projections. -/
def pairLt (x y : Nat × Nat) : Prop := x.1 < y.1 ∨ (x.1 = y.1 ∧ x.2 < y.2)

theorem row_chain (k A : Nat) :
    ((List.range' 1 A).map (fun a => (k, a))).Chain' pairLt := by
  rw [List.chain'_map]
  apply List.Pairwise.chain'
  apply List.Pairwise.imp ?_ (List.pairwise_lt_range' 1 A)
  intro a b hab
  exact Or.inr ⟨rfl, hab⟩

theorem flatMap_rows_chain (A : Nat) :
    ∀ N : Nat, ((List.range N).flatMap
      (fun i => (List.range' 1 A).map (fun a => (i, a)))).Chain' pairLt := by
  intro N
  induction N with
  | zero => simp
  | succ N ih =>
    rw [List.range_succ, List.flatMap_append]
    rw [List.chain'_append]
    refine ⟨ih, ?_, ?_⟩
    · simp only [List.flatMap_cons, List.flatMap_nil, List.append_nil]
      exact row_chain N A
    · intro x hx y hy
      have hxmem : x ∈ (List.range N).flatMap
          (fun i => (List.range' 1 A).map (fun a => (i, a))) := by
        rcases hlast : ((List.range N).flatMap
            (fun i => (List.range' 1 A).map (fun a => (i, a)))) with _ | ⟨z, zs⟩
        · rw [hlast] at hx
          simp at hx
        · rw [hlast] at hx
          have := List.mem_getLast?_eq_getLast (l := z :: zs) hx
          obtain ⟨hne, rfl⟩ := this
          exact List.getLast_mem hne
      have hx1 : x.1 < N := by
        obtain ⟨i, hi, hxin⟩ := List.mem_flatMap.mp hxmem
        obtain ⟨a, _, rfl⟩ := List.mem_map.mp hxin
        exact List.mem_range.mp hi
      have hy1 : y.1 = N := by
        simp only [List.flatMap_cons, List.flatMap_nil, List.append_nil] at hy
        rcases hhead : (List.range' 1 A).map (fun a => (N, a)) with _ | ⟨z, zs⟩
        · rw [hhead] at hy
          cases hy
        · rw [hhead] at hy
          simp only [List.head?_cons, Option.mem_def, Option.some.injEq] at hy
          subst hy
          have hz : z ∈ (List.range' 1 A).map (fun a => (N, a)) := by
            rw [hhead]
            exact List.mem_cons_self _ _
          obtain ⟨a, _, rfl⟩ := List.mem_map.mp hz
          rfl
      left
      omega

theorem sorted_nodup_chain_lt {l : List Nat} (hs : l.Pairwise (· ≤ ·)) (hn : l.Nodup) :
    l.Chain' (· < ·) := by
  apply List.Pairwise.chain'
  have hcomb := List.Pairwise.and hs hn
  apply List.Pairwise.imp ?_ hcomb
  intro a b hab
  omega

/-- C8 (amended): the outputs of the algorithmic branches are normalized —
the subset-construction branch of `determinized` and the Hopcroft branch
of `minimized` produce a lexicographically sorted transition table and
strictly ascending (sorted, duplicate-free) start and accept lists — while
the clone branches return the input verbatim (normalized only if the input
was). -/
theorem algorithmic_outputs_normalized (M : Automaton) :
    (M.automaton_type = AutomatonType.NonDet → normalized (M.determinized)) ∧
    (∀ M', M.minimized = some M' → M.automaton_type = AutomatonType.Det →
      ¬ M.size ≤ 2 → normalized M') ∧
    (M.automaton_type = AutomatonType.Det →
      M.determinized = ⟨AutomatonType.Det, M.size, M.alphabet, M.table, M.start, M.end_⟩) := by
  refine ⟨?_, ?_, ?_⟩
  · intro hnd
    obtain ⟨st', h1, h4, hstart, htable, hids, hshape, hcount⟩ := rabin_scott_output_shape M hnd
    obtain ⟨st2, h1b, hinv, hfr, h4b⟩ := rabin_scott_spec M
    rw [h1] at h1b
    cases h1b
    have hdet : M.determinized
        = ⟨AutomatonType.Det, st'.num_mapper.length, M.alphabet, st'.transitions, [0],
            st'.accept_states⟩ := by
      unfold determinized
      rw [hnd, h4]
    rw [hdet]
    refine ⟨?_, ?_, ?_⟩
    · show st'.transitions.Chain' trLe
      have hchain : (st'.transitions.map (fun t => (t.1, t.2.1))).Chain' pairLt := by
        rw [hshape]
        exact flatMap_rows_chain M.alphabet st'.num_mapper.length
      rw [List.chain'_map] at hchain
      apply List.Chain'.imp ?_ hchain
      intro a b hab
      unfold pairLt at hab
      unfold trLe
      simp only at hab
      omega
    · show ([0] : List Nat).Chain' (· < ·)
      simp
    · show st'.accept_states.Chain' (· < ·)
      exact hinv.accInc
  · intro M' hmin hdt hsz
    unfold minimized at hmin
    rw [hdt, if_neg hsz] at hmin
    rcases halg : M.hopcroft_algo with _ | ⟨pm, len⟩
    · rw [halg] at hmin
      cases hmin
    · rw [halg] at hmin
      dsimp only at hmin
      split at hmin
      · cases hmin
      · next tbl htbl =>
        split at hmin <;> cases hmin
        rename_i stv env hst hen
        refine ⟨?_, ?_, ?_⟩
        · show (tbl.dedup.insertionSort trLe).Chain' trLe
          apply List.Pairwise.chain'
          exact List.sorted_insertionSort trLe tbl.dedup
        · show (stv.insertionSort (· ≤ ·)).Chain' (· < ·)
          apply sorted_nodup_chain_lt (List.sorted_insertionSort _ stv)
          apply (List.perm_insertionSort _ stv).nodup_iff.mpr
          unfold get_part_vec_from_vec at hst
          rcases hmm : M.start.mapM pm with _ | sv
          · rw [hmm] at hst
            cases hst
          · rw [hmm] at hst
            simp only [Option.map_some', Option.some.injEq] at hst
            rw [← hst]
            exact List.nodup_dedup sv
        · show (env.insertionSort (· ≤ ·)).Chain' (· < ·)
          apply sorted_nodup_chain_lt (List.sorted_insertionSort _ env)
          apply (List.perm_insertionSort _ env).nodup_iff.mpr
          unfold get_part_vec_from_vec at hen
          rcases hmm : M.end_.mapM pm with _ | ev
          · rw [hmm] at hen
            cases hen
          · rw [hmm] at hen
            simp only [Option.map_some', Option.some.injEq] at hen
            rw [← hen]
            exact List.nodup_dedup ev
  · intro hdt
    unfold determinized
    rw [hdt]

end Automaton

open Automaton in
/-- Witness: `rabin_scott_output_shape` at the concrete ε-NFA `exEps`:
its determinization has start list `[0]`. -/
theorem rabin_scott_output_shape_witness :
    (exEps.determinized).start = [0] := by
  obtain ⟨st', _, _, hstart, _⟩ := rabin_scott_output_shape exEps rfl
  exact hstart

open Automaton in
/-- Witness: `algorithmic_outputs_normalized` at `exEps` (NonDet branch)
and at `exC5` (Det branch of `minimized`, size 3). -/
theorem algorithmic_outputs_normalized_witness :
    normalized (exEps.determinized) ∧
    (∀ M', exC5.minimized = some M' → normalized M') := by
  constructor
  · exact (algorithmic_outputs_normalized exEps).1 rfl
  · intro M' hm
    exact (algorithmic_outputs_normalized exC5).2.1 M' hm rfl (by decide)

namespace Automaton

theorem rsSymStep_mapper_mono (M : Automaton) (tm : Nat × Nat → List Nat) (next : Ubig)
    (st st₂ : RSState) (a : Nat) (h : rsSymStep M tm next st a = some st₂) :
    st.num_mapper.length ≤ st₂.num_mapper.length := by
  unfold rsSymStep at h
  split at h <;> cases h
  show st.num_mapper.length ≤ (rsInsert M st (rsNewS M tm next a)).num_mapper.length
  unfold rsInsert
  split
  · exact le_refl _
  · simp

theorem rsSymFold_mapper_mono (M : Automaton) (tm : Nat × Nat → List Nat) (next : Ubig) :
    ∀ (L : List Nat) (st st' : RSState),
      L.foldlM (rsSymStep M tm next) st = some st' →
      st.num_mapper.length ≤ st'.num_mapper.length := by
  intro L
  induction L with
  | nil =>
    intro st st' h
    have h' : some st = some st' := h
    cases h'
    exact le_refl _
  | cons a L ih =>
    intro st st' h
    rw [List.foldlM_cons] at h
    rcases h2 : rsSymStep M tm next st a with _ | st₂
    · rw [h2] at h
      exact Option.noConfusion h
    · rw [h2] at h
      have h3 : L.foldlM (rsSymStep M tm next) st₂ = some st' := h
      exact le_trans (rsSymStep_mapper_mono M tm next st st₂ a h2) (ih st₂ st' h3)

theorem rsLoop_mapper_mono (M : Automaton) (tm : Nat × Nat → List Nat) :
    ∀ (fuel : Nat) (st st' : RSState), rsLoop M tm fuel st = some st' →
      st.num_mapper.length ≤ st'.num_mapper.length := by
  intro fuel
  induction fuel with
  | zero =>
    intro st st' h
    have h' : (if st.frontier.isEmpty then some st else none) = some st' := h
    split at h'
    · cases h'
      exact le_refl _
    · exact Option.noConfusion h'
  | succ fuel ih =>
    intro st st' h
    rcases hfr : st.frontier with _ | ⟨next, rest⟩
    · have h' : some st = some st' := by
        rw [← h, rsLoop_succ, hfr]
      cases h'
      exact le_refl _
    · have h' : ((List.range' 1 M.alphabet).foldlM (rsSymStep M tm next)
          { st with frontier := rest }).bind (rsLoop M tm fuel) = some st' := by
        rw [← h, rsLoop_succ, hfr]
      rcases hmid : (List.range' 1 M.alphabet).foldlM (rsSymStep M tm next)
          { st with frontier := rest } with _ | mid
      · rw [hmid] at h'
        exact Option.noConfusion h'
      · rw [hmid] at h'
        have h2 : rsLoop M tm fuel mid = some st' := h'
        have hle1 : st.num_mapper.length
            ≤ ({ st with frontier := rest } : RSState).num_mapper.length := le_refl _
        exact le_trans hle1
          (le_trans (rsSymFold_mapper_mono M tm next _ _ _ hmid) (ih mid st' h2))

/-- C1: determinization preserves the language.  For a well-formed NFA and
any word over the symbol range `[1, alphabet]`, the automaton returned by
`determinized` (read deterministically via `find?` over its transition
table) accepts the word exactly when the input automaton accepts it under
NFA semantics with ε-transitions encoded as symbol 0. -/
theorem determinized_language_preserving (M : Automaton)
    (hnd : M.automaton_type = AutomatonType.NonDet) (hwf : WellFormed M)
    (w : List Nat) (hw : ∀ a ∈ w, 1 ≤ a ∧ a ≤ M.alphabet) :
    dfaAccepts (M.determinized) w = true ↔ nfaAccepts M w := by
  obtain ⟨st', h1, hinv, hfr, h4⟩ := rabin_scott_spec M
  have hshape := hinv.trShape
  rw [hfr] at hshape
  simp only [List.length_nil, Nat.sub_zero] at hshape
  have hdet : M.determinized
      = ⟨AutomatonType.Det, st'.num_mapper.length, M.alphabet, st'.transitions, [0],
          st'.accept_states⟩ := by
    unfold determinized
    rw [hnd, h4]
  have hN : 0 < st'.num_mapper.length := by
    have hmono := rsLoop_mapper_mono M (M.get_transition_map) (rsFuel M)
      (rsInit M (M.get_transition_map)) st' h1
    have hinit : (rsInit M (M.get_transition_map)).num_mapper.length = 1 := rfl
    omega
  have hdelta : ∀ q a, q < st'.num_mapper.length → 1 ≤ a → a ≤ M.alphabet →
      ∃ q', dfaDelta (M.determinized) q a = some q' ∧ q' < st'.num_mapper.length ∧
        (keyOf st' q').toSet = stepSet M (keyOf st' q).toSet a := by
    intro q a hq ha1 ha2
    have hmem : (q, a) ∈ st'.transitions.map (fun t => (t.1, t.2.1)) := by
      rw [hshape]
      exact List.mem_flatMap.mpr ⟨q, List.mem_range.mpr hq,
        List.mem_map.mpr ⟨a, List.mem_range'_1.mpr ⟨ha1, by omega⟩, rfl⟩⟩
    obtain ⟨t, ht, hteq⟩ := List.mem_map.mp hmem
    have ht1 : t.1 = q := congrArg Prod.fst hteq
    have ht2 : t.2.1 = a := congrArg Prod.snd hteq
    have hfind : ((M.determinized).table.find? (fun t => t.1 == q && t.2.1 == a)).isSome := by
      rw [hdet]
      exact List.find?_isSome.mpr ⟨t, ht, by rw [ht1, ht2]; simp⟩
    rcases hf : (M.determinized).table.find? (fun t => t.1 == q && t.2.1 == a) with _ | t₀
    · rw [hf] at hfind
      exact absurd hfind (by simp)
    · have hpred := List.find?_some hf
      have hq1 : t₀.1 = q := by
        have hb := (Bool.and_eq_true _ _).mp hpred
        exact eq_of_beq hb.1
      have ha' : t₀.2.1 = a := by
        have hb := (Bool.and_eq_true _ _).mp hpred
        exact eq_of_beq hb.2
      have hmemt : t₀ ∈ st'.transitions := by
        have hm0 := List.mem_of_find?_eq_some hf
        rw [hdet] at hm0
        exact hm0
      obtain ⟨hb1, hb2, hb3⟩ := hinv.trSem t₀ hmemt
      refine ⟨t₀.2.2, ?_, hb2, ?_⟩
      · unfold dfaDelta
        rw [hf]
        rfl
      · rw [hb3, hq1, ha']
  have hrun : ∀ (w : List Nat), (∀ a ∈ w, 1 ≤ a ∧ a ≤ M.alphabet) →
      ∀ q, q < st'.num_mapper.length →
      ∃ qf, dfaRun (M.determinized) q w = some qf ∧ qf < st'.num_mapper.length ∧
        (keyOf st' qf).toSet = w.foldl (stepSet M) (keyOf st' q).toSet := by
    intro w
    induction w with
    | nil =>
      intro _ q hq
      exact ⟨q, rfl, hq, rfl⟩
    | cons a w ih =>
      intro hw q hq
      have hmema : a ∈ a :: w := List.mem_cons_self a w
      obtain ⟨q', hdel, hq', hkey⟩ := hdelta q a hq (hw a hmema).1 (hw a hmema).2
      obtain ⟨qf, hrunw, hqf, hkeyf⟩ := ih (fun b hb => hw b (List.mem_cons_of_mem a hb)) q' hq'
      refine ⟨qf, ?_, hqf, ?_⟩
      · show (a :: w).foldlM (dfaDelta (M.determinized)) q = some qf
        rw [List.foldlM_cons, hdel]
        exact hrunw
      · rw [List.foldl_cons, ← hkey]
        exact hkeyf
  obtain ⟨qf, hrun0, hqf, hkey0⟩ := hrun w hw 0 hN
  have hstart : (M.determinized).start = [0] := by rw [hdet]
  have hend : (M.determinized).end_ = st'.accept_states := by rw [hdet]
  have haccb : dfaAccepts (M.determinized) w = st'.accept_states.contains qf := by
    unfold dfaAccepts
    rw [hstart]
    simp only [List.any_cons, List.any_nil, Bool.or_false]
    rw [hrun0, hend]
  rw [haccb]
  have hkey0' : (keyOf st' qf).toSet
      = w.foldl (stepSet M) (epsCloseSet M {s | s ∈ M.start}) := by
    rw [hkey0, hinv.startSem]
  constructor
  · intro hcont
    have hmemacc : qf ∈ st'.accept_states := List.elem_iff.mp hcont
    obtain ⟨f, hf, hbit⟩ := (hinv.accSem qf hqf).mp hmemacc
    have hfin : f ∈ (keyOf st' qf).toSet := hbit
    rw [hkey0'] at hfin
    obtain ⟨s, hs, hreach⟩ := (wordReach_iff_stepFold M w {s | s ∈ M.start} f).mpr hfin
    exact ⟨s, hs, f, hf, hreach⟩
  · rintro ⟨s, hs, f, hf, hreach⟩
    have hfin : f ∈ w.foldl (stepSet M) (epsCloseSet M {x | x ∈ M.start}) :=
      (wordReach_iff_stepFold M w {x | x ∈ M.start} f).mp ⟨s, hs, hreach⟩
    have hbit : (keyOf st' qf).bit_at f = true := by
      show f ∈ (keyOf st' qf).toSet
      rw [hkey0']
      exact hfin
    exact List.elem_iff.mpr ((hinv.accSem qf hqf).mpr ⟨f, hf, hbit⟩)

end Automaton

open Automaton in
/-- Witness: `determinized_language_preserving` at the concrete well-formed
ε-NFA `exEps` and the word `[1]`. -/
theorem determinized_language_preserving_witness :
    dfaAccepts (exEps.determinized) [1] = true ↔ nfaAccepts exEps [1] :=
  determinized_language_preserving exEps rfl (by decide) [1] (by decide)

/-- The set-of-indices reading of `bit_at` for the two concrete
counterexample values used against claim C2. -/
theorem bit_at_pad_zero (i : Nat) : (Ubig.mk [0]).bit_at i = (Ubig.mk []).bit_at i := by
  unfold Ubig.bit_at
  simp only [List.length_cons, List.length_nil]
  by_cases h : i < 1 * 8
  · interval_cases i <;> simp
  · simp [h]

/-- C2 counterexample evidence: `Ubig { num: [2] }` represents `{1}` and
`Ubig { num: [] }` represents `∅`, yet the `PartialEq` implementation
reports them equal (the tail-byte test compares against `1`, not `0`);
and `Ubig { num: [0] }` and `Ubig { num: [] }` represent the same set but
feed different byte vectors to the hasher. -/
theorem ubig_eq_hash_bug :
    (Ubig.rustEq ⟨[2]⟩ ⟨[]⟩ = true ∧
      (Ubig.mk [2]).bit_at 1 = true ∧ (Ubig.mk []).bit_at 1 = false) ∧
    (Ubig.hashInput ⟨[0]⟩ ≠ Ubig.hashInput ⟨[]⟩ ∧
      ∀ i, (Ubig.mk [0]).bit_at i = (Ubig.mk []).bit_at i) := by
  refine ⟨⟨by decide, by decide, by decide⟩, ⟨by decide, bit_at_pad_zero⟩⟩

end NFD
